/-
Verification of the trello-to-sankey core: a shallow embedding of the
stage normalizer and history cleaner (src/trello_sankey/generator.py)
and of the flow graph (src/trello_sankey/graph.py), with theorems about
the behaviour claimed in the specification.

Strings are modelled with Lean `String`; Python integer counters are
modelled with `Nat` (all counts are non-negative) and the cleaner's
`max_pipeline_index`, which starts at -1, with `Int`.  Python
`max(0, a - b)` on naturals coincides with truncated `Nat` subtraction
`a - b`.  Python dicts are modelled as insertion-ordered association
lists, matching dict semantics (updates in place, new keys appended).
-/
import Mathlib

/-! ## Stage normalizer (generator.py, `_normalize_stage_name`) -/

/-- `isPrefixChars needle hay`: `needle` is a prefix of `hay`. -/
def isPrefixChars : List Char → List Char → Bool
  | [], _ => true
  | _ :: _, [] => false
  | a :: as, b :: bs => a = b && isPrefixChars as bs

/-- `containsChars needle hay`: `needle` occurs as a contiguous substring of
`hay` (Python's `needle in hay` on strings). -/
def containsChars (needle : List Char) : List Char → Bool
  | [] => isPrefixChars needle []
  | c :: rest => isPrefixChars needle (c :: rest) || containsChars needle rest

/-- Python `needle in hay` for strings. -/
def containsStr (hay needle : String) : Bool :=
  containsChars needle.data hay.data

/-- Python `str.lower()` (character-wise lowering; the labels involved are
ASCII, where Python's and Lean's per-character lowering agree). -/
def lowerStr (s : String) : String :=
  ⟨s.data.map Char.toLower⟩

/-- Pipeline stages in logical order (generator.py, `PIPELINE_STAGES`). -/
def PIPELINE_STAGES : List String :=
  ["Applications", "Screening", "Technical assessment", "Final rounds", "Offers"]

/-- Terminal outcome states (generator.py, `FINAL_STATES`). -/
def FINAL_STATES : List String :=
  ["Accepted", "Rejected", "Rejected by me", "Discriminated"]

/-- Keyword rules of `_normalize_stage_name` (generator.py, `stage_mappings`). -/
def stage_mappings : List (List String × String) :=
  [ (["apply", "application", "sent"], "Applications"),
    (["screen", "contact"], "Screening"),
    (["technical", "assessment"], "Technical assessment"),
    (["final", "rounds"], "Final rounds"),
    (["offer", "negotiation"], "Offers"),
    (["accept"], "Accepted"),
    (["reject"], "Rejected") ]

/-- generator.py, `_normalize_stage_name`.  Python `not stage_name` is the
empty-string test; the "rejected by me" check runs before the rule list;
the first matching rule wins; otherwise the label passes through. -/
def normalize_stage_name (stage_name : String) : String :=
  if stage_name = "" ∨ stage_name = "Unknown" then "Unknown"
  else
    let stage_lower := lowerStr stage_name
    if containsStr stage_lower "rejected by me" || containsStr stage_lower "reject by me" then
      "Rejected by me"
    else
      match stage_mappings.findSome? (fun rule =>
        if rule.1.any (fun keyword => containsStr stage_lower keyword) then some rule.2
        else none) with
      | some normalized_name => normalized_name
      | none => stage_name

/-! ## History cleaner (generator.py, `_clean_backward_movements`) -/

/-- Python `list.index` restricted to the hit case (callers guarantee
membership; on a missing element Python would raise `ValueError`). -/
def idxOf : List String → String → Nat
  | [], _ => 0
  | a :: rest, s => if a = s then 0 else idxOf rest s + 1

/-- Clean card movement history. models.py `CardHistory`; its validator
`stages_not_empty` rejects an empty `stages` list (see claim C8). -/
structure CardHistory where
  card_id : String
  stages : List String
deriving DecidableEq, Repr

/-- generator.py lines 156-161: when the current pipeline index jumps more
than one step past `max_pipeline_index` (and some pipeline progress exists,
`max_pipeline_index != -1`), append the skipped stages
`PIPELINE_STAGES[max_pipeline_index+1 : current_index]`. -/
def gapFill (clean_history : List String) (max_pipeline_index current_index : Int) :
    List String :=
  if max_pipeline_index ≠ -1 ∧ current_index > max_pipeline_index + 1 then
    clean_history ++
      ((PIPELINE_STAGES.take current_index.toNat).drop (max_pipeline_index + 1).toNat)
  else clean_history

/-- generator.py lines 165-166: append the stage unless it equals the last
element already in the history (`if not clean_history or clean_history[-1]
!= normalized_stage`). -/
def appendStage (clean_history : List String) (normalized_stage : String) : List String :=
  if clean_history.getLast? = some normalized_stage then clean_history
  else clean_history ++ [normalized_stage]

/-- The per-card loop of `_clean_backward_movements` (generator.py lines
140-170): `clean_history` and `max_pipeline_index` are the loop state. -/
def cleanAux : List String → List String → Int → List String
  | [], clean_history, _ => clean_history
  | stage :: rest, clean_history, max_pipeline_index =>
    if normalize_stage_name stage ∈ FINAL_STATES then
      clean_history ++ [normalize_stage_name stage]
    else if normalize_stage_name stage ∈ PIPELINE_STAGES then
      if (idxOf PIPELINE_STAGES (normalize_stage_name stage) : Int) < max_pipeline_index then
        cleanAux rest clean_history max_pipeline_index
      else
        cleanAux rest
          (appendStage
            (gapFill clean_history max_pipeline_index
              (idxOf PIPELINE_STAGES (normalize_stage_name stage)))
            (normalize_stage_name stage))
          (idxOf PIPELINE_STAGES (normalize_stage_name stage))
    else if containsStr (normalize_stage_name stage) "Unknown" then
      cleanAux rest clean_history max_pipeline_index
    else
      cleanAux rest clean_history max_pipeline_index

/-- Cleaning of one card's raw history (generator.py lines 137-174),
including the fallback `clean_history = ["Applications"]`. -/
def cleanOneHistory (full_history : List String) : List String :=
  let clean_history := cleanAux full_history [] (-1)
  if clean_history = [] then ["Applications"] else clean_history

/-- generator.py, `_clean_backward_movements`: the raw movement dict
(insertion-ordered) becomes one `CardHistory` per card. -/
def clean_backward_movements (card_movements : List (String × List String)) :
    List CardHistory :=
  card_movements.map (fun p => ⟨p.1, cleanOneHistory p.2⟩)

example : cleanOneHistory ["Applications", "Final rounds"] =
    ["Applications", "Screening", "Technical assessment", "Final rounds"] := by decide

example : cleanOneHistory
    ["Applications", "Screening", "Technical assessment", "Screening", "Rejected"] =
    ["Applications", "Screening", "Technical assessment", "Rejected"] := by decide

example : cleanOneHistory [] = ["Applications"] := by decide

example : cleanOneHistory ["Screening"] = ["Screening"] := by decide

example : normalize_stage_name "We rejected by Meeting" = "Rejected by me" := by decide

example : normalize_stage_name "Zzz" = "Zzz" := by decide

/-! ## Flow graph (graph.py) -/

/-- A `defaultdict(int)` keyed by stage names: insertion-ordered association
list; `bump m k c` is Python `m[k] += c` (first matching key updated in
place, a new key appended at the end). -/
def bump : List (String × Nat) → String → Nat → List (String × Nat)
  | [], key, count => [(key, count)]
  | (k, v) :: rest, key, count =>
    if k = key then (k, v + count) :: rest else (k, v) :: bump rest key count

/-- Sum of the values of an edge dict (`sum(edges.values())`). -/
def sumVals : List (String × Nat) → Nat
  | [] => 0
  | (_, v) :: rest => v + sumVals rest

/-- First-match read of an edge dict (missing key counts as 0). -/
def edgeVal : List (String × Nat) → String → Nat
  | [], _ => 0
  | (k, v) :: rest, key => if k = key then v else edgeVal rest key

/-- graph.py, `StageNode`. -/
structure StageNode where
  name : String
  is_final : Bool
  incoming_edges : List (String × Nat)
  outgoing_edges : List (String × Nat)
deriving DecidableEq, Repr

/-- graph.py, `StageNode.add_incoming_flow`. -/
def StageNode.add_incoming_flow (node : StageNode) (from_stage : String) (count : Nat) :
    StageNode :=
  { node with incoming_edges := bump node.incoming_edges from_stage count }

/-- graph.py, `StageNode.add_outgoing_flow`. -/
def StageNode.add_outgoing_flow (node : StageNode) (to_stage : String) (count : Nat) :
    StageNode :=
  { node with outgoing_edges := bump node.outgoing_edges to_stage count }

/-- graph.py, `StageNode.total_incoming`. -/
def StageNode.total_incoming (node : StageNode) : Nat :=
  sumVals node.incoming_edges

/-- graph.py, `StageNode.total_outgoing`. -/
def StageNode.total_outgoing (node : StageNode) : Nat :=
  sumVals node.outgoing_edges

/-- graph.py, `StageNode.calculate_waiting`: `max(0, incoming - outgoing)`
is truncated `Nat` subtraction; final stages never wait. -/
def StageNode.calculate_waiting (node : StageNode) : Nat :=
  if node.is_final then 0
  else node.total_incoming - node.total_outgoing

/-- The node dict of a `FlowGraph`: insertion-ordered, keys unique (Python
dict semantics). -/
def dictGet : List (String × StageNode) → String → Option StageNode
  | [], _ => none
  | (k, v) :: rest, key => if k = key then some v else dictGet rest key

/-- Python `nodes[key] = node` on the node dict. -/
def dictSet : List (String × StageNode) → String → StageNode → List (String × StageNode)
  | [], key, node => [(key, node)]
  | (k, v) :: rest, key, node =>
    if k = key then (k, node) :: rest else (k, v) :: dictSet rest key node

/-- In-place mutation `nodes[key].f(...)` of the node stored under `key`
(Python dict keys are unique, so at most one entry is affected; entries
under other keys are untouched). -/
def modifyNode : List (String × StageNode) → String → (StageNode → StageNode) →
    List (String × StageNode)
  | [], _, _ => []
  | (k, v) :: rest, key, f =>
    if k = key then (k, f v) :: modifyNode rest key f
    else (k, v) :: modifyNode rest key f

/-- graph.py, `FlowGraph` (fields `pipeline_stages`, `final_stages`,
`nodes`, `total_cards`). -/
structure FlowGraph where
  pipeline_stages : List String
  final_stages : List String
  nodes : List (String × StageNode)
  total_cards : Nat
deriving DecidableEq, Repr

/-- graph.py, `FlowGraph.__init__`: one node per pipeline and final stage,
then the reserved "Waiting" node (final, zero edges). -/
def FlowGraph.init (pipeline_stages final_stages : List String) : FlowGraph :=
  let base := (pipeline_stages ++ final_stages).foldl
    (fun nodes stage => dictSet nodes stage ⟨stage, final_stages.contains stage, [], []⟩) []
  { pipeline_stages := pipeline_stages
    final_stages := final_stages
    nodes := dictSet base "Waiting" ⟨"Waiting", true, [], []⟩
    total_cards := 0 }

/-- Python `if stage not in self.nodes: self.nodes[stage] = node` (graph.py
lines 75-80). -/
def ensureNode (g : FlowGraph) (stage : String) (node : StageNode) : FlowGraph :=
  if (dictGet g.nodes stage).isSome then g
  else { g with nodes := dictSet g.nodes stage node }

/-- One iteration of the transition loop of `add_card_journey` (graph.py
lines 70-84): ensure both nodes exist (the `from` default node is
non-final, the `to` node's finality is looked up), then add the flow. -/
def addTransition (g : FlowGraph) (from_stage to_stage : String) : FlowGraph :=
  let g1 := ensureNode g from_stage ⟨from_stage, false, [], []⟩
  let g2 := ensureNode g1 to_stage
    ⟨to_stage, g1.final_stages.contains to_stage, [], []⟩
  let g3 := { g2 with nodes := (modifyNode g2.nodes from_stage
                (fun node => node.add_outgoing_flow to_stage 1)) }
  { g3 with nodes := (modifyNode g3.nodes to_stage
      (fun node => node.add_incoming_flow from_stage 1)) }

/-- The loop `for i in range(len(stages) - 1)` over consecutive pairs. -/
def addTransitions (g : FlowGraph) : List String → FlowGraph
  | from_stage :: to_stage :: rest =>
    addTransitions (addTransition g from_stage to_stage) (to_stage :: rest)
  | _ => g

/-- graph.py, `FlowGraph.add_card_journey`: empty journeys are ignored,
any other journey counts one card and adds its consecutive transitions. -/
def FlowGraph.add_card_journey (g : FlowGraph) (stages : List String) : FlowGraph :=
  match stages with
  | [] => g
  | _ :: _ => addTransitions { g with total_cards := g.total_cards + 1 } stages

/-- The per-node waiting amount of `calculate_waiting_flows` (graph.py lines
109-118), including the vacuous `cards_at_stage` conditional of lines
112-114 (both branches are `self.total_cards`). -/
def waitingAmount (g : FlowGraph) (stage_name : String) (node : StageNode) : Nat :=
  if g.pipeline_stages.head? = some stage_name ∧ node.total_incoming = 0 then
    let cards_at_stage := if node.total_outgoing > 0 then g.total_cards else g.total_cards
    cards_at_stage - node.total_outgoing
  else node.calculate_waiting

/-- One iteration of the loop of `calculate_waiting_flows` (graph.py lines
105-123): skip "Waiting", compute the waiting amount, and if positive add
an edge to "Waiting" (both directions of the edge dict are updated). -/
def waitingStep (g : FlowGraph) (stage_name : String) : FlowGraph :=
  if stage_name = "Waiting" then g
  else
    match dictGet g.nodes stage_name with
    | none => g
    | some node =>
      let waiting_cards := waitingAmount g stage_name node
      if waiting_cards > 0 then
        let g1 := { g with nodes := (modifyNode g.nodes stage_name
                      (fun n => n.add_outgoing_flow "Waiting" waiting_cards)) }
        { g1 with nodes := (modifyNode g1.nodes "Waiting"
            (fun n => n.add_incoming_flow stage_name waiting_cards)) }
      else g

/-- graph.py, `FlowGraph.calculate_waiting_flows`: iterate over the node
dict in insertion order.  (The first loop of lines 90-102 has an empty
body — `pass` — and is dropped.  No iteration adds or removes a dict key,
so iterating over the keys captured up front matches Python's `items()`.) -/
def FlowGraph.calculate_waiting_flows (g : FlowGraph) : FlowGraph :=
  (g.nodes.map Prod.fst).foldl waitingStep g

/-- models.py, `FlowData` (the `count > 0` pydantic constraint is a
validator, not part of the data). -/
structure FlowData where
  from_stage : String
  to_stage : String
  count : Nat
deriving DecidableEq, Repr

/-- graph.py, `FlowGraph.get_flows`: every outgoing edge of every node, in
dict iteration order. -/
def FlowGraph.get_flows (g : FlowGraph) : List FlowData :=
  g.nodes.foldr
    (fun entry acc =>
      (entry.2.outgoing_edges.map (fun e => ⟨entry.1, e.1, e.2⟩)) ++ acc) []

/-- models.py, `SankeyData` (flows plus total card count). -/
structure SankeyData where
  flows : List FlowData
  total_cards : Nat
deriving DecidableEq, Repr

/-- graph.py, `FlowGraph.to_sankey_data`: run the waiting pass, then read
the flows.  (In Python this mutates the graph; the post-state is
`g.calculate_waiting_flows`, so a second call returns
`(g.calculate_waiting_flows).to_sankey_data` — see claim C4.) -/
def FlowGraph.to_sankey_data (g : FlowGraph) : SankeyData :=
  let g1 := g.calculate_waiting_flows
  ⟨g1.get_flows, g1.total_cards⟩

/-- graph.py, `build_flow_graph_from_histories`. -/
def build_flow_graph_from_histories (card_histories : List CardHistory)
    (pipeline_stages final_stages : List String) : FlowGraph :=
  card_histories.foldl (fun g history => g.add_card_journey history.stages)
    (FlowGraph.init pipeline_stages final_stages)

/-- generator.py, `_calculate_flows` composed with the cleaner: the graph
the generator builds from raw card movements. -/
def graphOfMovements (card_movements : List (String × List String)) : FlowGraph :=
  build_flow_graph_from_histories (clean_backward_movements card_movements)
    PIPELINE_STAGES FINAL_STATES

/-- A graph state reached by adding arbitrary journeys to the generator's
initial graph (`FlowGraph(PIPELINE_STAGES, FINAL_STATES)`). -/
def graphOfJourneys (journeys : List (List String)) : FlowGraph :=
  journeys.foldl FlowGraph.add_card_journey
    (FlowGraph.init PIPELINE_STAGES FINAL_STATES)

example :
    (graphOfMovements [("c1", ["Applications", "Screening"])]).to_sankey_data.flows =
    [⟨"Applications", "Screening", 1⟩, ⟨"Screening", "Waiting", 1⟩] := by decide

/-! ## Claim C9: the "rejected by me" check precedes the rule list -/

/-- C9: any label whose lowercase form contains "rejected by me" or
"reject by me" normalizes to "Rejected by me"; the check runs before the
general keyword rules, so the generic "reject" rule never captures it. -/
theorem c9_rejected_by_me_precedence (stage_name : String)
    (h : containsStr (lowerStr stage_name) "rejected by me" = true ∨
         containsStr (lowerStr stage_name) "reject by me" = true) :
    normalize_stage_name stage_name = "Rejected by me" := by
  have hne : ¬(stage_name = "" ∨ stage_name = "Unknown") := by
    rintro (rfl | rfl) <;> revert h <;> decide
  have hb : (containsStr (lowerStr stage_name) "rejected by me" ||
      containsStr (lowerStr stage_name) "reject by me") = true := by
    rcases h with h | h <;> simp [h]
  simp only [normalize_stage_name, if_neg hne, hb, if_pos]

/-- Witness for C9 at a concrete label captured by the generic "reject"
keyword as well. -/
theorem c9_rejected_by_me_precedence_witness :
    normalize_stage_name "Project REJECT by ME now" = "Rejected by me" :=
  c9_rejected_by_me_precedence "Project REJECT by ME now" (Or.inr (by decide))

/-! ## Association-list and edge-dict lemmas -/

theorem sumVals_bump (m : List (String × Nat)) (k : String) (c : Nat) :
    sumVals (bump m k c) = sumVals m + c := by
  induction m with
  | nil => simp [bump, sumVals]
  | cons e rest ih =>
    obtain ⟨k', v⟩ := e
    by_cases hk : k' = k <;> simp [bump, hk, sumVals, ih] <;> omega

theorem edgeVal_bump_self (m : List (String × Nat)) (k : String) (c : Nat) :
    edgeVal (bump m k c) k = edgeVal m k + c := by
  induction m with
  | nil => simp [bump, edgeVal]
  | cons e rest ih =>
    obtain ⟨k', v⟩ := e
    by_cases hk : k' = k <;> simp [bump, hk, edgeVal, ih]

theorem edgeVal_bump_other (m : List (String × Nat)) (k x : String) (c : Nat)
    (hx : x ≠ k) : edgeVal (bump m k c) x = edgeVal m x := by
  induction m with
  | nil => simp [bump, edgeVal, Ne.symm hx]
  | cons e rest ih =>
    obtain ⟨k', v⟩ := e
    by_cases hk : k' = k
    · subst hk
      simp [bump, edgeVal, Ne.symm hx]
    · by_cases hx' : k' = x <;> simp [bump, hk, edgeVal, hx', ih, hx]

theorem bump_ne_nil (m : List (String × Nat)) (k : String) (c : Nat) :
    bump m k c ≠ [] := by
  cases m with
  | nil => simp [bump]
  | cons e rest =>
    obtain ⟨k', v⟩ := e
    by_cases hk : k' = k <;> simp [bump, hk]

theorem dictGet_modify_self (l : List (String × StageNode)) (k : String)
    (f : StageNode → StageNode) :
    dictGet (modifyNode l k f) k = (dictGet l k).map f := by
  induction l with
  | nil => simp [modifyNode, dictGet]
  | cons e rest ih =>
    obtain ⟨k', v⟩ := e
    by_cases hk : k' = k <;> simp [modifyNode, dictGet, hk, ih]

theorem dictGet_modify_other (l : List (String × StageNode)) (k x : String)
    (f : StageNode → StageNode) (hx : x ≠ k) :
    dictGet (modifyNode l k f) x = dictGet l x := by
  induction l with
  | nil => simp [modifyNode, dictGet]
  | cons e rest ih =>
    obtain ⟨k', v⟩ := e
    by_cases hk : k' = k
    · subst hk
      simp [modifyNode, dictGet, Ne.symm hx, ih]
    · by_cases hx' : k' = x <;> simp [modifyNode, dictGet, hk, hx', ih, hx]

theorem keys_modify (l : List (String × StageNode)) (k : String)
    (f : StageNode → StageNode) :
    (modifyNode l k f).map Prod.fst = l.map Prod.fst := by
  induction l with
  | nil => simp [modifyNode]
  | cons e rest ih =>
    obtain ⟨k', v⟩ := e
    by_cases hk : k' = k <;> simp [modifyNode, hk, ih]

theorem dictGet_isSome_iff_mem (l : List (String × StageNode)) (k : String) :
    (dictGet l k).isSome ↔ k ∈ l.map Prod.fst := by
  induction l with
  | nil => simp [dictGet]
  | cons e rest ih =>
    obtain ⟨k', v⟩ := e
    by_cases hk : k' = k
    · subst hk
      simp [dictGet]
    · simp [dictGet, hk, ih, Ne.symm hk]

theorem dictGet_mem (l : List (String × StageNode)) (k : String) (v : StageNode)
    (h : dictGet l k = some v) : (k, v) ∈ l := by
  induction l with
  | nil => simp [dictGet] at h
  | cons e rest ih =>
    obtain ⟨k', v'⟩ := e
    by_cases hk : k' = k
    · subst hk
      simp [dictGet] at h
      simp [h]
    · simp [dictGet, hk] at h
      simp [ih h]

theorem keys_dictSet_present (l : List (String × StageNode)) (k : String)
    (v : StageNode) (h : (dictGet l k).isSome) :
    (dictSet l k v).map Prod.fst = l.map Prod.fst := by
  induction l with
  | nil => simp [dictGet] at h
  | cons e rest ih =>
    obtain ⟨k', v'⟩ := e
    by_cases hk : k' = k <;> simp [dictSet, hk]
    exact ih (by simpa [dictGet, hk] using h)

theorem dictSet_absent (l : List (String × StageNode)) (k : String)
    (v : StageNode) (h : dictGet l k = none) :
    dictSet l k v = l ++ [(k, v)] := by
  induction l with
  | nil => simp [dictSet]
  | cons e rest ih =>
    obtain ⟨k', v'⟩ := e
    by_cases hk : k' = k
    · simp [dictGet, hk] at h
    · simp [dictGet, hk] at h
      simp [dictSet, hk, ih h]

theorem dictGet_append_right (l₁ l₂ : List (String × StageNode)) (k : String)
    (h : dictGet l₁ k = none) :
    dictGet (l₁ ++ l₂) k = dictGet l₂ k := by
  induction l₁ with
  | nil => simp
  | cons e rest ih =>
    obtain ⟨k', v'⟩ := e
    by_cases hk : k' = k
    · simp [dictGet, hk] at h
    · simp [dictGet, hk] at h ⊢
      exact ih h

theorem dictGet_append_left (l₁ l₂ : List (String × StageNode)) (k : String)
    (v : StageNode) (h : dictGet l₁ k = some v) :
    dictGet (l₁ ++ l₂) k = some v := by
  induction l₁ with
  | nil => simp [dictGet] at h
  | cons e rest ih =>
    obtain ⟨k', v'⟩ := e
    by_cases hk : k' = k <;> simp [dictGet, hk] at h ⊢
    · exact h
    · exact ih h

/-! ## Node-method evaluation lemmas -/

@[simp] theorem add_outgoing_flow_name (n : StageNode) (t : String) (c : Nat) :
    (n.add_outgoing_flow t c).name = n.name := rfl

@[simp] theorem add_outgoing_flow_final_flag (n : StageNode) (t : String) (c : Nat) :
    (n.add_outgoing_flow t c).is_final = n.is_final := rfl

@[simp] theorem add_outgoing_flow_incoming (n : StageNode) (t : String) (c : Nat) :
    (n.add_outgoing_flow t c).incoming_edges = n.incoming_edges := rfl

@[simp] theorem add_outgoing_flow_outgoing (n : StageNode) (t : String) (c : Nat) :
    (n.add_outgoing_flow t c).outgoing_edges = bump n.outgoing_edges t c := rfl

@[simp] theorem add_outgoing_flow_total_incoming (n : StageNode) (t : String) (c : Nat) :
    (n.add_outgoing_flow t c).total_incoming = n.total_incoming := rfl

@[simp] theorem add_outgoing_flow_total_outgoing (n : StageNode) (t : String) (c : Nat) :
    (n.add_outgoing_flow t c).total_outgoing = n.total_outgoing + c := by
  simp [StageNode.total_outgoing, StageNode.add_outgoing_flow, sumVals_bump]

@[simp] theorem add_incoming_flow_name (n : StageNode) (t : String) (c : Nat) :
    (n.add_incoming_flow t c).name = n.name := rfl

@[simp] theorem add_incoming_flow_final_flag (n : StageNode) (t : String) (c : Nat) :
    (n.add_incoming_flow t c).is_final = n.is_final := rfl

@[simp] theorem add_incoming_flow_outgoing (n : StageNode) (t : String) (c : Nat) :
    (n.add_incoming_flow t c).outgoing_edges = n.outgoing_edges := rfl

@[simp] theorem add_incoming_flow_incoming (n : StageNode) (t : String) (c : Nat) :
    (n.add_incoming_flow t c).incoming_edges = bump n.incoming_edges t c := rfl

@[simp] theorem add_incoming_flow_total_outgoing (n : StageNode) (t : String) (c : Nat) :
    (n.add_incoming_flow t c).total_outgoing = n.total_outgoing := rfl

@[simp] theorem add_incoming_flow_total_incoming (n : StageNode) (t : String) (c : Nat) :
    (n.add_incoming_flow t c).total_incoming = n.total_incoming + c := by
  simp [StageNode.total_incoming, StageNode.add_incoming_flow, sumVals_bump]

/-! ## Case analysis of one waiting-pass iteration -/

theorem waitingStep_eq_waiting_name (g : FlowGraph) : waitingStep g "Waiting" = g := by
  simp [waitingStep]

theorem waitingStep_eq_none (g : FlowGraph) (x : String)
    (h : dictGet g.nodes x = none) : waitingStep g x = g := by
  by_cases hxw : x = "Waiting" <;> simp [waitingStep, hxw, h]

theorem waitingStep_eq_of_waiting (g : FlowGraph) (x : String) (node : StageNode)
    (hxw : x ≠ "Waiting") (h : dictGet g.nodes x = some node)
    (hpos : 0 < waitingAmount g x node) :
    waitingStep g x =
      { g with nodes := (modifyNode
          (modifyNode g.nodes x
            (fun n => n.add_outgoing_flow "Waiting" (waitingAmount g x node)))
          "Waiting"
          (fun n => n.add_incoming_flow x (waitingAmount g x node))) } := by
  simp [waitingStep, hxw, h, hpos]

theorem waitingStep_eq_of_no_waiting (g : FlowGraph) (x : String) (node : StageNode)
    (hxw : x ≠ "Waiting") (h : dictGet g.nodes x = some node)
    (hz : waitingAmount g x node = 0) : waitingStep g x = g := by
  simp [waitingStep, hxw, h, hz]

theorem waitingStep_meta (g : FlowGraph) (x : String) :
    (waitingStep g x).total_cards = g.total_cards ∧
    (waitingStep g x).pipeline_stages = g.pipeline_stages ∧
    (waitingStep g x).final_stages = g.final_stages ∧
    (waitingStep g x).nodes.map Prod.fst = g.nodes.map Prod.fst := by
  by_cases hxw : x = "Waiting"
  · rw [hxw, waitingStep_eq_waiting_name]
    exact ⟨rfl, rfl, rfl, rfl⟩
  · rcases hnode : dictGet g.nodes x with _ | node
    · rw [waitingStep_eq_none g x hnode]
      exact ⟨rfl, rfl, rfl, rfl⟩
    · by_cases hpos : 0 < waitingAmount g x node
      · rw [waitingStep_eq_of_waiting g x node hxw hnode hpos]
        exact ⟨rfl, rfl, rfl, by simp [keys_modify]⟩
      · rw [waitingStep_eq_of_no_waiting g x node hxw hnode (by omega)]
        exact ⟨rfl, rfl, rfl, rfl⟩

theorem waitingStep_get_other (g : FlowGraph) (x name : String)
    (hx : name ≠ x) (hw : name ≠ "Waiting") :
    dictGet (waitingStep g x).nodes name = dictGet g.nodes name := by
  by_cases hxw : x = "Waiting"
  · rw [hxw, waitingStep_eq_waiting_name]
  · rcases hnode : dictGet g.nodes x with _ | node
    · rw [waitingStep_eq_none g x hnode]
    · by_cases hpos : 0 < waitingAmount g x node
      · rw [waitingStep_eq_of_waiting g x node hxw hnode hpos]
        show dictGet (modifyNode _ "Waiting" _) name = _
        rw [dictGet_modify_other _ _ _ _ hw, dictGet_modify_other _ _ _ _ hx]
      · rw [waitingStep_eq_of_no_waiting g x node hxw hnode (by omega)]

theorem waitingStep_get_self (g : FlowGraph) (x : String) (node : StageNode)
    (hxw : x ≠ "Waiting") (h : dictGet g.nodes x = some node) :
    dictGet (waitingStep g x).nodes x =
      some (if 0 < waitingAmount g x node
        then node.add_outgoing_flow "Waiting" (waitingAmount g x node) else node) := by
  by_cases hpos : 0 < waitingAmount g x node
  · rw [waitingStep_eq_of_waiting g x node hxw h hpos, if_pos hpos]
    show dictGet (modifyNode _ "Waiting" _) x = _
    rw [dictGet_modify_other _ _ _ _ hxw, dictGet_modify_self, h]
    rfl
  · rw [waitingStep_eq_of_no_waiting g x node hxw h (by omega), if_neg hpos, h]

theorem waitingStep_waiting_outgoing (g : FlowGraph) (x : String) (w : StageNode)
    (h : dictGet g.nodes "Waiting" = some w) :
    ∃ w', dictGet (waitingStep g x).nodes "Waiting" = some w' ∧
      w'.outgoing_edges = w.outgoing_edges ∧ w'.is_final = w.is_final := by
  by_cases hxw : x = "Waiting"
  · rw [hxw, waitingStep_eq_waiting_name]
    exact ⟨w, h, rfl, rfl⟩
  · rcases hnode : dictGet g.nodes x with _ | node
    · rw [waitingStep_eq_none g x hnode]
      exact ⟨w, h, rfl, rfl⟩
    · by_cases hpos : 0 < waitingAmount g x node
      · rw [waitingStep_eq_of_waiting g x node hxw hnode hpos]
        refine ⟨(w.add_incoming_flow x (waitingAmount g x node)), ?_, by simp, by simp⟩
        show dictGet (modifyNode _ "Waiting" _) "Waiting" = _
        rw [dictGet_modify_self, dictGet_modify_other _ _ _ _ (Ne.symm hxw), h]
        rfl
      · rw [waitingStep_eq_of_no_waiting g x node hxw hnode (by omega)]
        exact ⟨w, h, rfl, rfl⟩

/-! ## The waiting pass as a fold over the node keys -/

theorem foldl_waitingStep_meta (L : List String) (g : FlowGraph) :
    (L.foldl waitingStep g).total_cards = g.total_cards ∧
    (L.foldl waitingStep g).pipeline_stages = g.pipeline_stages ∧
    (L.foldl waitingStep g).final_stages = g.final_stages ∧
    (L.foldl waitingStep g).nodes.map Prod.fst = g.nodes.map Prod.fst := by
  induction L generalizing g with
  | nil => exact ⟨rfl, rfl, rfl, rfl⟩
  | cons x rest ih =>
    obtain ⟨h1, h2, h3, h4⟩ := ih (waitingStep g x)
    obtain ⟨m1, m2, m3, m4⟩ := waitingStep_meta g x
    exact ⟨by rw [List.foldl_cons, h1, m1], by rw [List.foldl_cons, h2, m2],
      by rw [List.foldl_cons, h3, m3], by rw [List.foldl_cons, h4, m4]⟩

theorem foldl_waitingStep_get_untouched (L : List String) (g : FlowGraph)
    (name : String) (h1 : name ∉ L) (h2 : name ≠ "Waiting") :
    dictGet (L.foldl waitingStep g).nodes name = dictGet g.nodes name := by
  induction L generalizing g with
  | nil => rfl
  | cons x rest ih =>
    rw [List.foldl_cons,
      ih (waitingStep g x) (fun hmem => h1 (List.mem_cons_of_mem _ hmem)),
      waitingStep_get_other g x name (fun hx => h1 (hx ▸ List.mem_cons_self _ _)) h2]

theorem foldl_waitingStep_waiting_outgoing (L : List String) (g : FlowGraph)
    (w : StageNode) (h : dictGet g.nodes "Waiting" = some w) :
    ∃ w', dictGet (L.foldl waitingStep g).nodes "Waiting" = some w' ∧
      w'.outgoing_edges = w.outgoing_edges ∧ w'.is_final = w.is_final := by
  induction L generalizing g w with
  | nil => exact ⟨w, h, rfl, rfl⟩
  | cons x rest ih =>
    obtain ⟨w1, hw1, he1, hf1⟩ := waitingStep_waiting_outgoing g x w h
    obtain ⟨w2, hw2, he2, hf2⟩ := ih (waitingStep g x) w1 hw1
    exact ⟨w2, by rw [List.foldl_cons]; exact hw2, by rw [he2, he1],
      by rw [hf2, hf1]⟩

/-- Core description of `calculate_waiting_flows`: on a graph whose node
keys are distinct (always true for dict-built graphs), the pass rewrites
each non-"Waiting" node by adding exactly its waiting amount — computed
from the pre-pass state — as an edge to "Waiting" (and touches nothing
else of that node). -/
theorem calculate_waiting_flows_get (g : FlowGraph)
    (hnd : (g.nodes.map Prod.fst).Nodup) (name : String) (node : StageNode)
    (hw : name ≠ "Waiting") (h : dictGet g.nodes name = some node) :
    dictGet g.calculate_waiting_flows.nodes name =
      some (if 0 < waitingAmount g name node
        then node.add_outgoing_flow "Waiting" (waitingAmount g name node) else node) := by
  have hmem : name ∈ g.nodes.map Prod.fst :=
    (dictGet_isSome_iff_mem _ _).1 (by rw [h]; rfl)
  obtain ⟨l₁, l₂, hsplit⟩ := List.append_of_mem hmem
  have hnd' : (l₁ ++ name :: l₂).Nodup := hsplit ▸ hnd
  obtain ⟨hn1, hn2, hdisj⟩ := List.nodup_append.1 hnd'
  have hname1 : name ∉ l₁ := fun hmem1 => hdisj hmem1 (List.mem_cons_self _ _)
  rw [FlowGraph.calculate_waiting_flows, hsplit, List.foldl_append, List.foldl_cons]
  have hget1 : dictGet (l₁.foldl waitingStep g).nodes name = dictGet g.nodes name :=
    foldl_waitingStep_get_untouched l₁ g name hname1 hw
  obtain ⟨m1, m2, m3, m4⟩ := foldl_waitingStep_meta l₁ g
  have hamount : waitingAmount (l₁.foldl waitingStep g) name node =
      waitingAmount g name node := by
    unfold waitingAmount
    rw [m1, m2]
  rw [foldl_waitingStep_get_untouched l₂ _ name (List.Nodup.not_mem hn2) hw,
    waitingStep_get_self _ name node hw (by rw [hget1, h]), hamount]

theorem pipeline_not_final : ∀ x ∈ PIPELINE_STAGES, x ∉ FINAL_STATES := by decide

theorem final_no_unknown : ∀ x ∈ FINAL_STATES, containsStr x "Unknown" = false := by
  decide

theorem pipeline_no_unknown : ∀ x ∈ PIPELINE_STAGES, containsStr x "Unknown" = false := by
  decide

/-- Everything the `gapFill` step can add comes from `PIPELINE_STAGES`. -/
theorem gapFill_mem (l : List String) (m c : Int) (x : String)
    (hx : x ∈ gapFill l m c) : x ∈ l ∨ x ∈ PIPELINE_STAGES := by
  unfold gapFill at hx
  split at hx
  · rcases List.mem_append.1 hx with h | h
    · exact Or.inl h
    · exact Or.inr (List.take_subset _ _ (List.drop_subset _ _ h))
  · exact Or.inl hx

/-- Everything `appendStage` can add is the appended stage itself. -/
theorem appendStage_mem (l : List String) (n x : String)
    (hx : x ∈ appendStage l n) : x ∈ l ∨ x = n := by
  unfold appendStage at hx
  split at hx
  · exact Or.inl hx
  · rcases List.mem_append.1 hx with h | h
    · exact Or.inl h
    · exact Or.inr (by simpa using h)

/-- Evaluation of `gapFill` on a genuine gap (`max_pipeline_index` is a
recorded stage `m ≥ 0` and the current index jumps past `m + 1`). -/
theorem gapFill_eval (l : List String) (m c : Nat) (h : m + 1 < c) :
    gapFill l (m : Int) (c : Int) =
      l ++ ((PIPELINE_STAGES.take c).drop (m + 1)) := by
  rw [gapFill, if_pos ⟨by omega, by omega⟩]
  simp

/-- Evaluation of `appendStage` when the last element differs. -/
theorem appendStage_eval (l : List String) (n : String)
    (h : l.getLast? ≠ some n) : appendStage l n = l ++ [n] := by
  rw [appendStage, if_neg h]

/-! ## Claim C6: terminal stages are absorbing and final -/

/-- Invariant proof for C6: provided the accumulator contains no terminal
stage, everything before the last element of the cleaner's output is
non-terminal. -/
theorem cleanAux_dropLast_no_final (full : List String) :
    ∀ (acc : List String) (m : Int), (∀ x ∈ acc, x ∉ FINAL_STATES) →
      ∀ x ∈ (cleanAux full acc m).dropLast, x ∉ FINAL_STATES := by
  induction full with
  | nil =>
    intro acc m hacc x hx
    exact hacc x (List.dropLast_subset _ hx)
  | cons stage rest ih =>
    intro acc m hacc x hx
    by_cases hfin : normalize_stage_name stage ∈ FINAL_STATES
    · rw [cleanAux, if_pos hfin] at hx
      simp only [List.dropLast_concat] at hx
      exact hacc x hx
    · by_cases hpip : normalize_stage_name stage ∈ PIPELINE_STAGES
      · by_cases hlt : (idxOf PIPELINE_STAGES (normalize_stage_name stage) : Int) < m
        · rw [cleanAux, if_neg hfin, if_pos hpip, if_pos hlt] at hx
          exact ih acc m hacc x hx
        · rw [cleanAux, if_neg hfin, if_pos hpip, if_neg hlt] at hx
          refine ih _ _ ?_ x hx
          intro y hy
          rcases appendStage_mem _ _ _ hy with hy' | rfl
          · rcases gapFill_mem _ _ _ _ hy' with hy'' | hy''
            · exact hacc y hy''
            · exact pipeline_not_final y hy''
          · exact hfin
      · by_cases hunk : containsStr (normalize_stage_name stage) "Unknown" = true
        · rw [cleanAux, if_neg hfin, if_neg hpip, if_pos hunk] at hx
          exact ih acc m hacc x hx
        · rw [cleanAux, if_neg hfin, if_neg hpip, if_neg hunk] at hx
          exact ih acc m hacc x hx

/-- C6: a label normalizing to a terminal stage is appended and the rest of
the raw history is discarded (`break`), and consequently a terminal stage
can only occur as the last element of a cleaned history. -/
theorem c6_terminal_absorbing :
    (∀ (stage : String) (rest clean_history : List String) (m : Int),
      normalize_stage_name stage ∈ FINAL_STATES →
      cleanAux (stage :: rest) clean_history m =
        clean_history ++ [normalize_stage_name stage]) ∧
    (∀ (full_history : List String) (x : String),
      x ∈ (cleanOneHistory full_history).dropLast → x ∉ FINAL_STATES) := by
  constructor
  · intro stage rest acc m hfin
    rw [cleanAux, if_pos hfin]
  · intro full x hx
    simp only [cleanOneHistory] at hx
    split at hx
    · simp at hx
    · exact cleanAux_dropLast_no_final full [] (-1) (by simp) x hx

/-- Witness for C6: the terminal "Rejected" discards the remaining raw
labels. -/
theorem c6_terminal_absorbing_witness :
    cleanAux ["Rejected", "Offers"] ["Applications"] 0 =
      ["Applications"] ++ [normalize_stage_name "Rejected"] ∧
    ("Applications" ∈ (cleanOneHistory ["Applications", "Rejected", "Offers"]).dropLast →
      "Applications" ∉ FINAL_STATES) :=
  ⟨c6_terminal_absorbing.1 "Rejected" ["Offers"] ["Applications"] 0 (by decide),
   c6_terminal_absorbing.2 ["Applications", "Rejected", "Offers"] "Applications"⟩

/-! ## Claim C7: backward movements are discarded -/

/-- C7: a pipeline stage whose index is strictly below the running
`max_pipeline_index` is skipped, and the spec's example cleans as
claimed. -/
theorem c7_backward_suppression :
    (∀ (stage : String) (rest clean_history : List String) (m : Int),
      normalize_stage_name stage ∈ PIPELINE_STAGES →
      (idxOf PIPELINE_STAGES (normalize_stage_name stage) : Int) < m →
      cleanAux (stage :: rest) clean_history m = cleanAux rest clean_history m) ∧
    cleanOneHistory
        ["Applications", "Screening", "Technical assessment", "Screening", "Rejected"] =
      ["Applications", "Screening", "Technical assessment", "Rejected"] := by
  constructor
  · intro stage rest acc m hpip hlt
    have hfin : normalize_stage_name stage ∉ FINAL_STATES :=
      pipeline_not_final _ hpip
    rw [cleanAux, if_neg hfin, if_pos hpip, if_pos hlt]
  · decide

/-- Witness for C7: "Screening" (index 1) is dropped when the pipeline has
already reached index 2. -/
theorem c7_backward_suppression_witness :
    cleanAux ["Screening"] ["Technical assessment"] 2 =
      cleanAux [] ["Technical assessment"] 2 :=
  c7_backward_suppression.1 "Screening" [] ["Technical assessment"] 2
    (by decide) (by decide)

/-! ## Claim C8: unusable histories default to the first pipeline stage -/

/-- Invariant proof for C8: if every raw label normalizes to a name
containing "Unknown", the cleaner's loop leaves the accumulator
untouched. -/
theorem cleanAux_all_unknown (full : List String) :
    ∀ (acc : List String) (m : Int),
      (∀ s ∈ full, containsStr (normalize_stage_name s) "Unknown" = true) →
      cleanAux full acc m = acc := by
  induction full with
  | nil => intro acc m _; rfl
  | cons stage rest ih =>
    intro acc m h
    have hs := h stage (by simp)
    have hfin : normalize_stage_name stage ∉ FINAL_STATES := by
      intro hmem
      have := final_no_unknown _ hmem
      rw [hs] at this
      cases this
    have hpip : normalize_stage_name stage ∉ PIPELINE_STAGES := by
      intro hmem
      have := pipeline_no_unknown _ hmem
      rw [hs] at this
      cases this
    rw [cleanAux, if_neg hfin, if_neg hpip, if_pos hs]
    exact ih acc m (fun s hs' => h s (by simp [hs']))

/-- C8: a cleaned history is never empty, and an entity with no usable
observation (empty raw history, or every label normalizing to an
"Unknown" name) gets exactly `["Applications"]`. -/
theorem c8_default_first_stage (full_history : List String) :
    cleanOneHistory full_history ≠ [] ∧
    (full_history = [] → cleanOneHistory full_history = ["Applications"]) ∧
    ((∀ s ∈ full_history, containsStr (normalize_stage_name s) "Unknown" = true) →
      cleanOneHistory full_history = ["Applications"]) := by
  refine ⟨?_, ?_, ?_⟩
  · simp only [cleanOneHistory]
    split <;> simp_all
  · rintro rfl
    decide
  · intro h
    simp only [cleanOneHistory]
    rw [cleanAux_all_unknown full_history [] (-1) h]
    simp

/-! ## Claim C1: gap filling -/

/-- Counterexample to C1 as stated: "Screening" has pipeline position 1 and
is encountered with `max_pipeline_index = -1`, so `idx > max_pipeline_index
+ 1`; the claim then demands the missing stage "Applications" (position 0)
be appended first, but the code only gap-fills when `max_pipeline_index !=
-1`, so the cleaned history is `["Screening"]`. -/
theorem c1_gap_fill_counterexample :
    cleanOneHistory ["Screening"] = ["Screening"] ∧
    cleanOneHistory ["Screening"] ≠ ["Applications", "Screening"] := by
  decide

/-- C1 (amended): gap filling happens whenever a pipeline stage of index
`idx > max_pipeline_index + 1` is met *and a pipeline stage was already
recorded* (`max_pipeline_index ≠ -1`, i.e. it is some recorded index
`m ≥ 0`): the missing stages `PIPELINE_STAGES[m+1 : idx]` are appended in
pipeline order, then the current stage; the spec's
`["Applications", "Final rounds"]` example holds. -/
theorem c1_gap_fill_amended :
    (∀ (stage : String) (rest clean_history : List String) (m : Nat),
      normalize_stage_name stage ∈ PIPELINE_STAGES →
      (m : Int) + 1 < (idxOf PIPELINE_STAGES (normalize_stage_name stage) : Int) →
      cleanAux (stage :: rest) clean_history (m : Int) =
        cleanAux rest
          ((clean_history ++
              ((PIPELINE_STAGES.take
                  (idxOf PIPELINE_STAGES (normalize_stage_name stage))).drop (m + 1))) ++
            [normalize_stage_name stage])
          (idxOf PIPELINE_STAGES (normalize_stage_name stage))) ∧
    cleanOneHistory ["Applications", "Final rounds"] =
      ["Applications", "Screening", "Technical assessment", "Final rounds"] := by
  constructor
  · intro stage rest acc m hpip hgap
    have hfin : normalize_stage_name stage ∉ FINAL_STATES :=
      pipeline_not_final _ hpip
    have hlt : ¬((idxOf PIPELINE_STAGES (normalize_stage_name stage) : Int) < (m : Int)) := by
      omega
    rw [cleanAux, if_neg hfin, if_pos hpip, if_neg hlt]
    have h5 : normalize_stage_name stage = "Applications" ∨
        normalize_stage_name stage = "Screening" ∨
        normalize_stage_name stage = "Technical assessment" ∨
        normalize_stage_name stage = "Final rounds" ∨
        normalize_stage_name stage = "Offers" := by
      simpa [PIPELINE_STAGES] using hpip
    rcases h5 with hn | hn | hn | hn | hn <;> rw [hn] at hgap ⊢
    · rw [show idxOf PIPELINE_STAGES "Applications" = 0 from rfl] at hgap
      exfalso
      omega
    · rw [show idxOf PIPELINE_STAGES "Screening" = 1 from rfl] at hgap
      exfalso
      omega
    · rw [show idxOf PIPELINE_STAGES "Technical assessment" = 2 from rfl] at hgap ⊢
      have hm : m = 0 := by omega
      subst hm
      rw [gapFill_eval acc 0 2 (by omega),
        show (PIPELINE_STAGES.take 2).drop (0 + 1) = ["Screening"] from rfl,
        appendStage_eval _ _ (by rw [List.getLast?_append_cons]; decide)]
    · rw [show idxOf PIPELINE_STAGES "Final rounds" = 3 from rfl] at hgap ⊢
      have hm : m = 0 ∨ m = 1 := by omega
      rcases hm with rfl | rfl
      · rw [gapFill_eval acc 0 3 (by omega),
          show (PIPELINE_STAGES.take 3).drop (0 + 1) =
            ["Screening", "Technical assessment"] from rfl,
          appendStage_eval _ _ (by rw [List.getLast?_append_cons]; decide)]
      · rw [gapFill_eval acc 1 3 (by omega),
          show (PIPELINE_STAGES.take 3).drop (1 + 1) = ["Technical assessment"] from rfl,
          appendStage_eval _ _ (by rw [List.getLast?_append_cons]; decide)]
    · rw [show idxOf PIPELINE_STAGES "Offers" = 4 from rfl] at hgap ⊢
      have hm : m = 0 ∨ m = 1 ∨ m = 2 := by omega
      rcases hm with rfl | rfl | rfl
      · rw [gapFill_eval acc 0 4 (by omega),
          show (PIPELINE_STAGES.take 4).drop (0 + 1) =
            ["Screening", "Technical assessment", "Final rounds"] from rfl,
          appendStage_eval _ _ (by rw [List.getLast?_append_cons]; decide)]
      · rw [gapFill_eval acc 1 4 (by omega),
          show (PIPELINE_STAGES.take 4).drop (1 + 1) =
            ["Technical assessment", "Final rounds"] from rfl,
          appendStage_eval _ _ (by rw [List.getLast?_append_cons]; decide)]
      · rw [gapFill_eval acc 2 4 (by omega),
          show (PIPELINE_STAGES.take 4).drop (2 + 1) = ["Final rounds"] from rfl,
          appendStage_eval _ _ (by rw [List.getLast?_append_cons]; decide)]
  · decide

/-- Witness for C1: jumping from "Applications" (recorded index 0) straight
to "Final rounds" (index 3) inserts the two skipped stages first. -/
theorem c1_gap_fill_amended_witness :
    cleanAux ["Final rounds"] ["Applications"] ((0 : Nat) : Int) =
      cleanAux []
        ((["Applications"] ++
            ((PIPELINE_STAGES.take
                (idxOf PIPELINE_STAGES (normalize_stage_name "Final rounds"))).drop (0 + 1))) ++
          [normalize_stage_name "Final rounds"])
        (idxOf PIPELINE_STAGES (normalize_stage_name "Final rounds")) :=
  c1_gap_fill_amended.1 "Final rounds" [] ["Applications"] 0 (by decide) (by decide)

/-- Witness for C8: a history of only unknown-looking labels defaults to
`["Applications"]` and is non-empty. -/
theorem c8_default_first_stage_witness :
    cleanOneHistory ["Unknown", "Unknownish place"] = ["Applications"] ∧
    cleanOneHistory ["Unknown", "Unknownish place"] ≠ [] :=
  ⟨(c8_default_first_stage ["Unknown", "Unknownish place"]).2.2 (by decide),
   (c8_default_first_stage ["Unknown", "Unknownish place"]).1⟩

/-! ## Effect of adding one transition -/

theorem ensureNode_eq_of_present (g : FlowGraph) (k : String) (v : StageNode)
    (h : (dictGet g.nodes k).isSome) : ensureNode g k v = g := by
  simp [ensureNode, h]

theorem ensureNode_fields (g : FlowGraph) (k : String) (v : StageNode) :
    (ensureNode g k v).pipeline_stages = g.pipeline_stages ∧
    (ensureNode g k v).final_stages = g.final_stages ∧
    (ensureNode g k v).total_cards = g.total_cards := by
  unfold ensureNode
  by_cases h : (dictGet g.nodes k).isSome
  · rw [if_pos h]
    exact ⟨rfl, rfl, rfl⟩
  · rw [if_neg h]
    exact ⟨rfl, rfl, rfl⟩

theorem ensureNode_get_keep (g : FlowGraph) (k : String) (v : StageNode)
    (x : String) (node : StageNode) (h : dictGet g.nodes x = some node) :
    dictGet (ensureNode g k v).nodes x = some node := by
  unfold ensureNode
  by_cases hp : (dictGet g.nodes k).isSome
  · rw [if_pos hp]
    exact h
  · rw [if_neg hp]
    have hn : dictGet g.nodes k = none := Option.not_isSome_iff_eq_none.1 hp
    show dictGet (dictSet g.nodes k v) x = some node
    rw [dictSet_absent _ _ _ hn]
    exact dictGet_append_left _ _ _ _ h

theorem ensureNode_isSome_self (g : FlowGraph) (k : String) (v : StageNode) :
    (dictGet (ensureNode g k v).nodes k).isSome := by
  unfold ensureNode
  by_cases hp : (dictGet g.nodes k).isSome
  · rw [if_pos hp]
    exact hp
  · rw [if_neg hp]
    have hn : dictGet g.nodes k = none := Option.not_isSome_iff_eq_none.1 hp
    show (dictGet (dictSet g.nodes k v) k).isSome
    rw [dictSet_absent _ _ _ hn, dictGet_append_right _ _ _ hn]
    simp [dictGet]

theorem ensureNode_nodup (g : FlowGraph) (k : String) (v : StageNode)
    (h : (g.nodes.map Prod.fst).Nodup) :
    ((ensureNode g k v).nodes.map Prod.fst).Nodup := by
  unfold ensureNode
  by_cases hp : (dictGet g.nodes k).isSome
  · rw [if_pos hp]
    exact h
  · rw [if_neg hp]
    have hn : dictGet g.nodes k = none := Option.not_isSome_iff_eq_none.1 hp
    have hk : k ∉ g.nodes.map Prod.fst := fun hm =>
      hp ((dictGet_isSome_iff_mem _ _).2 hm)
    show ((dictSet g.nodes k v).map Prod.fst).Nodup
    rw [dictSet_absent _ _ _ hn, List.map_append]
    refine List.nodup_append.2 ⟨h, List.nodup_singleton _, ?_⟩
    intro y hy hy'
    simp at hy'
    exact hk (hy' ▸ hy)

theorem dictGet_modify2 (l : List (String × StageNode)) (a b x : String)
    (f g : StageNode → StageNode) :
    dictGet (modifyNode (modifyNode l a f) b g) x =
      (dictGet l x).map (fun n =>
        if x = b then (if x = a then g (f n) else g n)
        else (if x = a then f n else n)) := by
  by_cases hb : x = b <;> by_cases ha : x = a
  · rw [← hb, ← ha] at *
    rw [dictGet_modify_self, dictGet_modify_self, Option.map_map]
    simp [hb, ha]
    rfl
  · rw [← hb] at *
    rw [dictGet_modify_self, dictGet_modify_other _ _ _ _ ha]
    simp [hb, ha]
  · rw [← ha] at *
    rw [dictGet_modify_other _ _ _ _ hb, dictGet_modify_self]
    simp [hb, ha]
  · rw [dictGet_modify_other _ _ _ _ hb, dictGet_modify_other _ _ _ _ ha]
    cases dictGet l x <;> simp [hb, ha]

theorem addTransition_fields (g : FlowGraph) (a b : String) :
    (addTransition g a b).pipeline_stages = g.pipeline_stages ∧
    (addTransition g a b).final_stages = g.final_stages ∧
    (addTransition g a b).total_cards = g.total_cards := by
  obtain ⟨e1, e2, e3⟩ := ensureNode_fields g a ⟨a, false, [], []⟩
  obtain ⟨f1, f2, f3⟩ := ensureNode_fields (ensureNode g a ⟨a, false, [], []⟩) b
    ⟨b, (ensureNode g a ⟨a, false, [], []⟩).final_stages.contains b, [], []⟩
  refine ⟨?_, ?_, ?_⟩ <;> simp only [addTransition]
  · rw [f1, e1]
  · rw [f2, e2]
  · rw [f3, e3]

theorem addTransition_nodup (g : FlowGraph) (a b : String)
    (h : (g.nodes.map Prod.fst).Nodup) :
    ((addTransition g a b).nodes.map Prod.fst).Nodup := by
  simp only [addTransition]
  rw [keys_modify, keys_modify]
  exact ensureNode_nodup _ _ _ (ensureNode_nodup _ _ _ h)

/-- Adding a transition between two stages that already have nodes leaves
the key list unchanged and rewrites the stored nodes pointwise: the `from`
node gains one outgoing, the `to` node one incoming. -/
theorem addTransition_get_present (g : FlowGraph) (a b x : String) (node : StageNode)
    (ha : (dictGet g.nodes a).isSome) (hb : (dictGet g.nodes b).isSome)
    (h : dictGet g.nodes x = some node) :
    dictGet (addTransition g a b).nodes x =
      some (if x = b then
              (if x = a then (node.add_outgoing_flow b 1).add_incoming_flow a 1
               else node.add_incoming_flow a 1)
            else (if x = a then node.add_outgoing_flow b 1 else node)) := by
  simp only [addTransition, ensureNode_eq_of_present g a _ ha,
    ensureNode_eq_of_present g b _ hb]
  rw [dictGet_modify2, h]
  rfl

theorem addTransition_keys_present (g : FlowGraph) (a b : String)
    (ha : (dictGet g.nodes a).isSome) (hb : (dictGet g.nodes b).isSome) :
    (addTransition g a b).nodes.map Prod.fst = g.nodes.map Prod.fst := by
  simp only [addTransition, ensureNode_eq_of_present g a _ ha,
    ensureNode_eq_of_present g b _ hb]
  rw [keys_modify, keys_modify]

/-! ## Effect of adding a whole journey -/

theorem addTransitions_fields (stages : List String) (g : FlowGraph) :
    (addTransitions g stages).pipeline_stages = g.pipeline_stages ∧
    (addTransitions g stages).final_stages = g.final_stages ∧
    (addTransitions g stages).total_cards = g.total_cards := by
  induction stages generalizing g with
  | nil => exact ⟨rfl, rfl, rfl⟩
  | cons a t ih =>
    cases t with
    | nil => exact ⟨rfl, rfl, rfl⟩
    | cons b t' =>
      obtain ⟨i1, i2, i3⟩ := ih (addTransition g a b)
      obtain ⟨j1, j2, j3⟩ := addTransition_fields g a b
      exact ⟨by rw [addTransitions, i1, j1], by rw [addTransitions, i2, j2],
        by rw [addTransitions, i3, j3]⟩

theorem addTransitions_nodup (stages : List String) (g : FlowGraph)
    (h : (g.nodes.map Prod.fst).Nodup) :
    ((addTransitions g stages).nodes.map Prod.fst).Nodup := by
  induction stages generalizing g with
  | nil => exact h
  | cons a t ih =>
    cases t with
    | nil => exact h
    | cons b t' => exact ih (addTransition g a b) (addTransition_nodup g a b h)

theorem addTransition_get_mono (g : FlowGraph) (a b x : String) (node : StageNode)
    (h : dictGet g.nodes x = some node) :
    ∃ node', dictGet (addTransition g a b).nodes x = some node' ∧
      node'.is_final = node.is_final ∧
      (node.outgoing_edges ≠ [] → node'.outgoing_edges ≠ []) := by
  have h1 := ensureNode_get_keep g a ⟨a, false, [], []⟩ x node h
  have h2 := ensureNode_get_keep _ b
    ⟨b, (ensureNode g a ⟨a, false, [], []⟩).final_stages.contains b, [], []⟩ x node h1
  refine ⟨if x = b then
      (if x = a then (node.add_outgoing_flow b 1).add_incoming_flow a 1
       else node.add_incoming_flow a 1)
    else (if x = a then node.add_outgoing_flow b 1 else node), ?_, ?_, ?_⟩
  · show dictGet (addTransition g a b).nodes x = _
    simp only [addTransition]
    rw [dictGet_modify2, h2]
    rfl
  · split_ifs <;> simp
  · intro hne
    split_ifs <;> simp [hne, bump_ne_nil]

theorem addTransitions_get_mono (stages : List String) (g : FlowGraph)
    (x : String) (node : StageNode) (h : dictGet g.nodes x = some node) :
    ∃ node', dictGet (addTransitions g stages).nodes x = some node' ∧
      node'.is_final = node.is_final ∧
      (node.outgoing_edges ≠ [] → node'.outgoing_edges ≠ []) := by
  induction stages generalizing g node with
  | nil => exact ⟨node, h, rfl, fun hne => hne⟩
  | cons a t ih =>
    cases t with
    | nil => exact ⟨node, h, rfl, fun hne => hne⟩
    | cons b t' =>
      obtain ⟨n1, hn1, hf1, ho1⟩ := addTransition_get_mono g a b x node h
      obtain ⟨n2, hn2, hf2, ho2⟩ := ih (addTransition g a b) n1 hn1
      exact ⟨n2, hn2, by rw [hf2, hf1], fun hne => ho2 (ho1 hne)⟩

theorem add_card_journey_fields (g : FlowGraph) (stages : List String) :
    (g.add_card_journey stages).pipeline_stages = g.pipeline_stages ∧
    (g.add_card_journey stages).final_stages = g.final_stages ∧
    (g.add_card_journey stages).total_cards =
      g.total_cards + (if stages = [] then 0 else 1) := by
  match stages with
  | [] => exact ⟨rfl, rfl, by simp [FlowGraph.add_card_journey]⟩
  | s :: rest =>
    obtain ⟨i1, i2, i3⟩ := addTransitions_fields (s :: rest)
      { g with total_cards := g.total_cards + 1 }
    exact ⟨i1, i2, by rw [FlowGraph.add_card_journey, i3]; simp⟩

theorem add_card_journey_nodup (g : FlowGraph) (stages : List String)
    (h : (g.nodes.map Prod.fst).Nodup) :
    ((g.add_card_journey stages).nodes.map Prod.fst).Nodup := by
  match stages with
  | [] => exact h
  | s :: rest =>
    exact addTransitions_nodup (s :: rest) { g with total_cards := g.total_cards + 1 } h

theorem add_card_journey_get_mono (g : FlowGraph) (stages : List String)
    (x : String) (node : StageNode) (h : dictGet g.nodes x = some node) :
    ∃ node', dictGet (g.add_card_journey stages).nodes x = some node' ∧
      node'.is_final = node.is_final ∧
      (node.outgoing_edges ≠ [] → node'.outgoing_edges ≠ []) := by
  match stages with
  | [] => exact ⟨node, h, rfl, fun hne => hne⟩
  | s :: rest =>
    exact addTransitions_get_mono (s :: rest)
      { g with total_cards := g.total_cards + 1 } x node h

/-! ## Invariants of journey-built graphs -/

theorem graphOfJourneys_fields (journeys : List (List String)) :
    (graphOfJourneys journeys).pipeline_stages = PIPELINE_STAGES ∧
    (graphOfJourneys journeys).final_stages = FINAL_STATES := by
  suffices h : ∀ (g : FlowGraph),
      (journeys.foldl FlowGraph.add_card_journey g).pipeline_stages =
        g.pipeline_stages ∧
      (journeys.foldl FlowGraph.add_card_journey g).final_stages = g.final_stages by
    obtain ⟨h1, h2⟩ := h (FlowGraph.init PIPELINE_STAGES FINAL_STATES)
    exact ⟨h1, h2⟩
  induction journeys with
  | nil => exact fun g => ⟨rfl, rfl⟩
  | cons j rest ih =>
    intro g
    obtain ⟨i1, i2⟩ := ih (g.add_card_journey j)
    obtain ⟨j1, j2, _⟩ := add_card_journey_fields g j
    exact ⟨by rw [List.foldl_cons, i1, j1], by rw [List.foldl_cons, i2, j2]⟩

theorem graphOfJourneys_nodup (journeys : List (List String)) :
    ((graphOfJourneys journeys).nodes.map Prod.fst).Nodup := by
  suffices h : ∀ (g : FlowGraph), (g.nodes.map Prod.fst).Nodup →
      ((journeys.foldl FlowGraph.add_card_journey g).nodes.map Prod.fst).Nodup by
    exact h (FlowGraph.init PIPELINE_STAGES FINAL_STATES) (by decide)
  induction journeys with
  | nil => exact fun g hg => hg
  | cons j rest ih =>
    exact fun g hg => ih (g.add_card_journey j) (add_card_journey_nodup g j hg)

theorem graphOfJourneys_applications (journeys : List (List String)) :
    ∃ node, dictGet (graphOfJourneys journeys).nodes "Applications" = some node ∧
      node.is_final = false := by
  suffices h : ∀ (g : FlowGraph) (node : StageNode),
      dictGet g.nodes "Applications" = some node → node.is_final = false →
      ∃ node', dictGet
          (journeys.foldl FlowGraph.add_card_journey g).nodes "Applications" =
          some node' ∧ node'.is_final = false by
    exact h (FlowGraph.init PIPELINE_STAGES FINAL_STATES)
      ⟨"Applications", false, [], []⟩ (by decide) rfl
  induction journeys with
  | nil => exact fun g node hget hfin => ⟨node, hget, hfin⟩
  | cons j rest ih =>
    intro g node hget hfin
    obtain ⟨n1, hn1, hf1, _⟩ := add_card_journey_get_mono g j "Applications" node hget
    exact ih (g.add_card_journey j) n1 hn1 (by rw [hf1, hfin])

/-! ## Claim C2: the per-node waiting amount -/

/-- Counterexample to C2 as stated.  First input: one journey
`["Applications", "Rejected"]`.  The terminal node "Rejected" then has
`total_incoming - total_outgoing = 1`, so the claimed formula
`max(0, incoming - outgoing)` demands waiting 1, but after the pass its
outgoing edges are still empty (terminal nodes never wait).  Second
input: journeys `["Screening", "Applications"]` and `["Screening"]` give
the first pipeline stage `total_incoming = 1` and `total_cards = 2`; the
claimed "always `total_entities` baseline" demands a waiting edge of
`2 - 0 = 2`, but the code only uses that baseline when `total_incoming ==
0` and adds `max(0, 1 - 0) = 1`. -/
theorem c2_waiting_formula_counterexample :
    (dictGet
        (graphOfJourneys [["Applications", "Rejected"]]).calculate_waiting_flows.nodes
        "Rejected" = some ⟨"Rejected", true, [("Applications", 1)], []⟩) ∧
    (dictGet (graphOfJourneys
          [["Screening", "Applications"], ["Screening"]]).calculate_waiting_flows.nodes
        "Applications" =
      some ⟨"Applications", false, [("Screening", 1)], [("Waiting", 1)]⟩) ∧
    (graphOfJourneys [["Screening", "Applications"], ["Screening"]]).total_cards = 2 := by
  decide

/-- The per-node waiting amount in the words of the amended claim C2:
terminal nodes wait 0; the first pipeline stage is measured against
`total_entities` (`total_cards`) exactly when it has no incoming flow;
every other node waits `max(0, total_incoming - total_outgoing)` (written
with truncated subtraction). -/
def claimed_waiting_amount (g : FlowGraph) (stage_name : String)
    (node : StageNode) : Nat :=
  if node.is_final then 0
  else if g.pipeline_stages.head? = some stage_name ∧ node.total_incoming = 0 then
    g.total_cards - node.total_outgoing
  else node.total_incoming - node.total_outgoing

/-- On nodes where the first-stage special case can only hit a non-final
node, the code's waiting amount agrees with the amended claim's. -/
theorem waitingAmount_eq_claimed (g : FlowGraph) (name : String) (node : StageNode)
    (hA : g.pipeline_stages.head? = some name → node.is_final = false) :
    waitingAmount g name node = claimed_waiting_amount g name node := by
  by_cases hfirst : g.pipeline_stages.head? = some name ∧ node.total_incoming = 0
  · have hfin := hA hfirst.1
    unfold waitingAmount claimed_waiting_amount
    rw [hfin, if_pos hfirst, if_neg (show ¬(false = true) by simp), if_pos hfirst]
    simp only [ite_self]
  · unfold waitingAmount claimed_waiting_amount StageNode.calculate_waiting
    rw [if_neg hfirst]
    by_cases hf : node.is_final
    · rw [if_pos hf, if_pos hf]
    · rw [if_neg hf, if_neg hf, if_neg hfirst]

/-- C2 (amended): after `calculate_waiting_flows` on a graph reached by
adding journeys, every node other than "Waiting" carries exactly
`claimed_waiting_amount` more flow to "Waiting" than before the pass:
terminal nodes 0; the first pipeline stage measured against `total_cards`
exactly when its incoming total is 0; all others
`max(0, total_incoming - total_outgoing)`. -/
theorem c2_waiting_amounts_amended (journeys : List (List String)) (name : String)
    (node node' : StageNode) (hw : name ≠ "Waiting")
    (h : dictGet (graphOfJourneys journeys).nodes name = some node)
    (h' : dictGet (graphOfJourneys journeys).calculate_waiting_flows.nodes name =
      some node') :
    edgeVal node'.outgoing_edges "Waiting" =
      edgeVal node.outgoing_edges "Waiting" +
        claimed_waiting_amount (graphOfJourneys journeys) name node := by
  have hnd := graphOfJourneys_nodup journeys
  have hpass := calculate_waiting_flows_get (graphOfJourneys journeys) hnd name node hw h
  rw [hpass] at h'
  have hnode' := (Option.some.inj h').symm
  have hamount : waitingAmount (graphOfJourneys journeys) name node =
      claimed_waiting_amount (graphOfJourneys journeys) name node := by
    apply waitingAmount_eq_claimed
    intro hfirst
    have hp := (graphOfJourneys_fields journeys).1
    rw [hp] at hfirst
    have hname : name = "Applications" := by
      have : some "Applications" = some name := hfirst
      exact (Option.some.inj this).symm
    obtain ⟨nodeA, hgetA, hfinA⟩ := graphOfJourneys_applications journeys
    rw [hname] at h
    rw [h] at hgetA
    rw [Option.some.inj hgetA]
    exact hfinA
  by_cases hpos : 0 < waitingAmount (graphOfJourneys journeys) name node
  · rw [hnode', if_pos hpos]
    rw [add_outgoing_flow_outgoing, edgeVal_bump_self, hamount]
  · rw [hnode', if_neg hpos, ← hamount]
    omega

/-- Witness for C2 at the journey `["Applications", "Screening"]` and the
node "Screening" (waiting amount 1). -/
theorem c2_waiting_amounts_amended_witness :
    edgeVal
        (StageNode.mk "Screening" false [("Applications", 1)] [("Waiting", 1)]).outgoing_edges
        "Waiting" =
      edgeVal (StageNode.mk "Screening" false [("Applications", 1)] []).outgoing_edges
          "Waiting" +
        claimed_waiting_amount (graphOfJourneys [["Applications", "Screening"]])
          "Screening" (StageNode.mk "Screening" false [("Applications", 1)] []) :=
  c2_waiting_amounts_amended [["Applications", "Screening"]] "Screening"
    ⟨"Screening", false, [("Applications", 1)], []⟩
    ⟨"Screening", false, [("Applications", 1)], [("Waiting", 1)]⟩
    (by decide) (by decide) (by decide)

/-! ## Claim C4: the waiting pass is idempotent in effect -/

/-- After one pass, every remaining waiting amount is zero: the pass tops
each node's outgoing total up to exactly the baseline its waiting amount
was measured against, so a second measurement sees no deficit. -/
theorem waitingAmount_pass_zero (g : FlowGraph)
    (hnd : (g.nodes.map Prod.fst).Nodup) (name : String) (node : StageNode)
    (hw : name ≠ "Waiting") (h : dictGet g.nodes name = some node)
    (node' : StageNode)
    (h' : dictGet g.calculate_waiting_flows.nodes name = some node') :
    waitingAmount g.calculate_waiting_flows name node' = 0 := by
  have hpass := calculate_waiting_flows_get g hnd name node hw h
  rw [hpass] at h'
  have hnode' := (Option.some.inj h').symm
  obtain ⟨m1, m2, _, _⟩ := foldl_waitingStep_meta (g.nodes.map Prod.fst) g
  have hm1 : g.calculate_waiting_flows.total_cards = g.total_cards := m1
  have hm2 : g.calculate_waiting_flows.pipeline_stages = g.pipeline_stages := m2
  have hout : node'.total_outgoing =
      node.total_outgoing + waitingAmount g name node := by
    rw [hnode']
    split
    · simp
    · have hz : waitingAmount g name node = 0 := by omega
      rw [hz]
      omega
  have hin : node'.total_incoming = node.total_incoming := by
    rw [hnode']
    split <;> simp
  have hfin : node'.is_final = node.is_final := by
    rw [hnode']
    split <;> simp
  by_cases hfirst : g.pipeline_stages.head? = some name ∧ node.total_incoming = 0
  · have hwval : waitingAmount g name node =
        g.total_cards - node.total_outgoing := by
      unfold waitingAmount
      rw [if_pos hfirst]
      simp only [ite_self]
    unfold waitingAmount
    rw [if_pos ⟨by rw [hm2]; exact hfirst.1, by rw [hin]; exact hfirst.2⟩]
    simp only [ite_self]
    rw [hm1]
    omega
  · have hfirst' : ¬(g.calculate_waiting_flows.pipeline_stages.head? = some name ∧
        node'.total_incoming = 0) := by
      rw [hm2, hin]
      exact hfirst
    unfold waitingAmount
    rw [if_neg hfirst']
    unfold StageNode.calculate_waiting
    by_cases hf : node.is_final
    · rw [if_pos (by rw [hfin]; exact hf)]
    · have hwval : waitingAmount g name node =
          node.total_incoming - node.total_outgoing := by
        unfold waitingAmount
        rw [if_neg hfirst]
        unfold StageNode.calculate_waiting
        rw [if_neg hf]
      rw [if_neg (by rw [hfin]; exact hf), hin]
      omega

/-- A fold of `waitingStep` over names on which it acts as the identity is
the identity. -/
theorem foldl_waitingStep_id (L : List String) (g : FlowGraph)
    (h : ∀ x ∈ L, waitingStep g x = g) : L.foldl waitingStep g = g := by
  induction L with
  | nil => rfl
  | cons x rest ih =>
    rw [List.foldl_cons, h x (List.mem_cons_self _ _)]
    exact ih (fun y hy => h y (List.mem_cons_of_mem _ hy))

/-- C4: running `calculate_waiting_flows` twice on a graph built by adding
journeys leaves exactly the state reached by running it once — waiting
flows are never double-counted — and hence a second `to_sankey_data` call
(which re-runs the pass on the mutated graph) returns identical data. -/
theorem c4_waiting_pass_idempotent (journeys : List (List String)) :
    (graphOfJourneys journeys).calculate_waiting_flows.calculate_waiting_flows =
      (graphOfJourneys journeys).calculate_waiting_flows ∧
    (graphOfJourneys journeys).calculate_waiting_flows.to_sankey_data =
      (graphOfJourneys journeys).to_sankey_data := by
  have hnd := graphOfJourneys_nodup journeys
  obtain ⟨_, _, _, m4⟩ :=
    foldl_waitingStep_meta ((graphOfJourneys journeys).nodes.map Prod.fst)
      (graphOfJourneys journeys)
  have hm4 : (graphOfJourneys journeys).calculate_waiting_flows.nodes.map Prod.fst =
      (graphOfJourneys journeys).nodes.map Prod.fst := m4
  have hsteps : ∀ x ∈ (graphOfJourneys journeys).calculate_waiting_flows.nodes.map
      Prod.fst,
      waitingStep (graphOfJourneys journeys).calculate_waiting_flows x =
        (graphOfJourneys journeys).calculate_waiting_flows := by
    intro x hx
    by_cases hxw : x = "Waiting"
    · rw [hxw]
      exact waitingStep_eq_waiting_name _
    · rw [hm4] at hx
      obtain ⟨node, hnode⟩ := Option.isSome_iff_exists.1
        ((dictGet_isSome_iff_mem _ _).2 hx)
      have hpass := calculate_waiting_flows_get (graphOfJourneys journeys) hnd x node
        hxw hnode
      exact waitingStep_eq_of_no_waiting _ x _ hxw hpass
        (waitingAmount_pass_zero (graphOfJourneys journeys) hnd x node hxw hnode _
          hpass)
  have hmain : (graphOfJourneys journeys).calculate_waiting_flows.calculate_waiting_flows
      = (graphOfJourneys journeys).calculate_waiting_flows :=
    foldl_waitingStep_id _ _ hsteps
  refine ⟨hmain, ?_⟩
  show (⟨_, _⟩ : SankeyData) = (⟨_, _⟩ : SankeyData)
  rw [hmain]

/-! ## Claim C5: pass-through labels and ad-hoc nodes -/

/-- Counterexample to C5 as stated: "Zzz" is non-empty, is not "Unknown"
and matches no normalizer rule, so it passes through the normalizer
unchanged — but when it occurs in a raw movement history the cleaner
silently drops it (it is neither terminal, nor pipeline, nor
"Unknown"-like), so no ad-hoc "Zzz" node ever appears in the constructed
flow graph. -/
theorem c5_passthrough_counterexample :
    normalize_stage_name "Zzz" = "Zzz" ∧
    dictGet (graphOfMovements [("c1", ["Zzz"])]).nodes "Zzz" = none := by
  decide

/-- Every element of a cleaned history is a pipeline or a final stage
name. -/
theorem cleanAux_mem (full : List String) :
    ∀ (acc : List String) (m : Int),
      (∀ y ∈ acc, y ∈ PIPELINE_STAGES ∨ y ∈ FINAL_STATES) →
      ∀ x ∈ cleanAux full acc m, x ∈ PIPELINE_STAGES ∨ x ∈ FINAL_STATES := by
  induction full with
  | nil => exact fun acc m hacc x hx => hacc x hx
  | cons stage rest ih =>
    intro acc m hacc x hx
    by_cases hfin : normalize_stage_name stage ∈ FINAL_STATES
    · rw [cleanAux, if_pos hfin] at hx
      rcases List.mem_append.1 hx with h | h
      · exact hacc x h
      · have hx' : x = normalize_stage_name stage := by simpa using h
        exact Or.inr (hx' ▸ hfin)
    · by_cases hpip : normalize_stage_name stage ∈ PIPELINE_STAGES
      · by_cases hlt : (idxOf PIPELINE_STAGES (normalize_stage_name stage) : Int) < m
        · rw [cleanAux, if_neg hfin, if_pos hpip, if_pos hlt] at hx
          exact ih acc m hacc x hx
        · rw [cleanAux, if_neg hfin, if_pos hpip, if_neg hlt] at hx
          refine ih _ _ ?_ x hx
          intro y hy
          rcases appendStage_mem _ _ _ hy with hy' | rfl
          · rcases gapFill_mem _ _ _ _ hy' with hy'' | hy''
            · exact hacc y hy''
            · exact Or.inl hy''
          · exact Or.inl hpip
      · by_cases hunk : containsStr (normalize_stage_name stage) "Unknown" = true
        · rw [cleanAux, if_neg hfin, if_neg hpip, if_pos hunk] at hx
          exact ih acc m hacc x hx
        · rw [cleanAux, if_neg hfin, if_neg hpip, if_neg hunk] at hx
          exact ih acc m hacc x hx

theorem cleanOneHistory_mem (full : List String) (x : String)
    (hx : x ∈ cleanOneHistory full) :
    x ∈ PIPELINE_STAGES ∨ x ∈ FINAL_STATES := by
  simp only [cleanOneHistory] at hx
  split at hx
  · simp at hx
    exact Or.inl (by rw [hx]; decide)
  · exact cleanAux_mem full [] (-1) (by simp) x hx

theorem addTransitions_keys (stages : List String) (g : FlowGraph)
    (h : ∀ x ∈ stages, x ∈ g.nodes.map Prod.fst) :
    (addTransitions g stages).nodes.map Prod.fst = g.nodes.map Prod.fst := by
  induction stages generalizing g with
  | nil => rfl
  | cons a t ih =>
    cases t with
    | nil => rfl
    | cons b t' =>
      have hk := addTransition_keys_present g a b
        ((dictGet_isSome_iff_mem _ _).2 (h a (by simp)))
        ((dictGet_isSome_iff_mem _ _).2 (h b (by simp)))
      rw [addTransitions, ih (addTransition g a b)
        (fun x hx => by rw [hk]; exact h x (List.mem_cons_of_mem _ hx)), hk]

theorem add_card_journey_keys (g : FlowGraph) (stages : List String)
    (h : ∀ x ∈ stages, x ∈ g.nodes.map Prod.fst) :
    (g.add_card_journey stages).nodes.map Prod.fst = g.nodes.map Prod.fst := by
  match stages with
  | [] => rfl
  | s :: rest =>
    exact addTransitions_keys (s :: rest) { g with total_cards := g.total_cards + 1 } h

/-- The node set of the graph the generator builds is always exactly the
configured pipeline stages, final states and "Waiting" — the cleaner only
ever emits canonical names, so the graph's defensive lazy node creation
never fires. -/
theorem graphOfMovements_keys (card_movements : List (String × List String)) :
    (graphOfMovements card_movements).nodes.map Prod.fst =
      PIPELINE_STAGES ++ FINAL_STATES ++ ["Waiting"] := by
  unfold graphOfMovements build_flow_graph_from_histories clean_backward_movements
  suffices h : ∀ (histories : List CardHistory) (g : FlowGraph),
      (∀ hist ∈ histories, ∀ x ∈ hist.stages,
        x ∈ PIPELINE_STAGES ∨ x ∈ FINAL_STATES) →
      g.nodes.map Prod.fst = PIPELINE_STAGES ++ FINAL_STATES ++ ["Waiting"] →
      ((histories.foldl (fun g history => g.add_card_journey history.stages) g).nodes.map
        Prod.fst) = PIPELINE_STAGES ++ FINAL_STATES ++ ["Waiting"] by
    refine h _ _ ?_ (by decide)
    intro hist hmem x hx
    simp only [List.mem_map] at hmem
    obtain ⟨p, _, hp⟩ := hmem
    rw [← hp] at hx
    exact cleanOneHistory_mem p.2 x hx
  intro histories
  induction histories with
  | nil => exact fun g _ hg => hg
  | cons hist rest ih =>
    intro g hmem hg
    rw [List.foldl_cons]
    refine ih (g.add_card_journey hist.stages) (fun h hm x hx =>
      hmem h (List.mem_cons_of_mem _ hm) x hx) ?_
    rw [add_card_journey_keys g hist.stages, hg]
    intro x hx
    rw [hg]
    rcases hmem hist (by simp) x hx with h | h
    · simp [h]
    · simp [h]

/-- C5 (amended): a non-empty label other than "Unknown" matching no
normalizer keyword rule passes through `normalize` unchanged; but when
such a label occurs in an entity's raw movement history the cleaner
discards it, and the constructed flow graph's node set is always exactly
the pipeline stages, the final states and "Waiting" — no ad-hoc node is
ever created. -/
theorem c5_passthrough_amended :
    (∀ stage_name : String, stage_name ≠ "" → stage_name ≠ "Unknown" →
      containsStr (lowerStr stage_name) "rejected by me" = false →
      containsStr (lowerStr stage_name) "reject by me" = false →
      (∀ rule ∈ stage_mappings, ∀ keyword ∈ rule.1,
        containsStr (lowerStr stage_name) keyword = false) →
      normalize_stage_name stage_name = stage_name) ∧
    (∀ card_movements : List (String × List String),
      (graphOfMovements card_movements).nodes.map Prod.fst =
        PIPELINE_STAGES ++ FINAL_STATES ++ ["Waiting"]) := by
  constructor
  · intro stage_name h1 h2 h3 h4 h5
    have hnone : stage_mappings.findSome? (fun rule =>
        if rule.1.any (fun keyword => containsStr (lowerStr stage_name) keyword)
        then some rule.2 else none) = none := by
      rw [List.findSome?_eq_none_iff]
      intro rule hrule
      have : rule.1.any (fun keyword => containsStr (lowerStr stage_name) keyword)
          = false := by
        rw [List.any_eq_false]
        intro keyword hkw
        simp [h5 rule hrule keyword hkw]
      simp [this]
    have hcond : ¬(stage_name = "" ∨ stage_name = "Unknown") :=
      fun hc => hc.elim h1 h2
    rw [normalize_stage_name, if_neg hcond]
    simp only [h3, h4, Bool.or_self, Bool.false_eq_true, if_false, hnone]
  · exact graphOfMovements_keys

/-- Witness for C5 at the unmapped label "Zzz". -/
theorem c5_passthrough_amended_witness :
    normalize_stage_name "Zzz" = "Zzz" ∧
    (graphOfMovements [("c1", ["Zzz"])]).nodes.map Prod.fst =
      PIPELINE_STAGES ++ FINAL_STATES ++ ["Waiting"] :=
  ⟨c5_passthrough_amended.1 "Zzz" (by decide) (by decide) (by decide) (by decide)
    (by decide),
   c5_passthrough_amended.2 [("c1", ["Zzz"])]⟩

/-! ## Claim C10: a non-empty input always produces at least one flow -/

/-- `graphOfMovements` is the journey fold over the cleaned histories'
stage lists. -/
theorem graphOfMovements_eq_journeys (card_movements : List (String × List String)) :
    graphOfMovements card_movements =
      graphOfJourneys
        ((clean_backward_movements card_movements).map (fun h => h.stages)) := by
  unfold graphOfMovements graphOfJourneys build_flow_graph_from_histories
  rw [List.foldl_map]

theorem graphOfJourneys_total_cards (journeys : List (List String))
    (h : ∀ j ∈ journeys, j ≠ []) :
    (graphOfJourneys journeys).total_cards = journeys.length := by
  suffices hgen : ∀ (g : FlowGraph), (∀ j ∈ journeys, j ≠ []) →
      (journeys.foldl FlowGraph.add_card_journey g).total_cards =
        g.total_cards + journeys.length by
    rw [graphOfJourneys, hgen _ h,
      show (FlowGraph.init PIPELINE_STAGES FINAL_STATES).total_cards = 0 from rfl]
    omega
  clear h
  induction journeys with
  | nil => intro g _; rfl
  | cons j rest ih =>
    intro g h
    rw [List.foldl_cons, ih (g.add_card_journey j)
      (fun x hx => h x (List.mem_cons_of_mem _ hx)),
      (add_card_journey_fields g j).2.2, if_neg (h j (List.mem_cons_self _ _))]
    simp [List.length_cons]
    omega

theorem foldl_journeys_get_mono (journeys : List (List String)) (g : FlowGraph)
    (x : String) (node : StageNode) (h : dictGet g.nodes x = some node) :
    ∃ node', dictGet
        (journeys.foldl FlowGraph.add_card_journey g).nodes x = some node' ∧
      node'.is_final = node.is_final ∧
      (node.outgoing_edges ≠ [] → node'.outgoing_edges ≠ []) := by
  induction journeys generalizing g node with
  | nil => exact ⟨node, h, rfl, fun hne => hne⟩
  | cons j rest ih =>
    obtain ⟨n1, hn1, hf1, ho1⟩ := add_card_journey_get_mono g j x node h
    obtain ⟨n2, hn2, hf2, ho2⟩ := ih (g.add_card_journey j) n1 hn1
    exact ⟨n2, by rw [List.foldl_cons]; exact hn2, by rw [hf2, hf1],
      fun hne => ho2 (ho1 hne)⟩

/-- The source node of a freshly added transition has a non-empty outgoing
edge dict. -/
theorem addTransition_from_outgoing (g : FlowGraph) (a b : String) :
    ∃ node', dictGet (addTransition g a b).nodes a = some node' ∧
      node'.outgoing_edges ≠ [] := by
  obtain ⟨na, hna⟩ := Option.isSome_iff_exists.1
    (ensureNode_isSome_self g a ⟨a, false, [], []⟩)
  have h2 := ensureNode_get_keep (ensureNode g a ⟨a, false, [], []⟩) b
    ⟨b, (ensureNode g a ⟨a, false, [], []⟩).final_stages.contains b, [], []⟩ a na hna
  simp only [addTransition]
  rw [dictGet_modify2, h2]
  refine ⟨_, rfl, ?_⟩
  by_cases hab : a = b <;> simp [hab, bump_ne_nil]

/-- A journey with at least two stages leaves its first stage with a
non-empty outgoing edge dict. -/
theorem add_card_journey_two (g : FlowGraph) (a b : String) (t : List String) :
    ∃ node', dictGet (g.add_card_journey (a :: b :: t)).nodes a = some node' ∧
      node'.outgoing_edges ≠ [] := by
  show ∃ node', dictGet (addTransitions
      (addTransition { g with total_cards := g.total_cards + 1 } a b) (b :: t)).nodes a =
      some node' ∧ node'.outgoing_edges ≠ []
  obtain ⟨na, hna, hne⟩ :=
    addTransition_from_outgoing { g with total_cards := g.total_cards + 1 } a b
  obtain ⟨n2, hn2, _, ho2⟩ := addTransitions_get_mono (b :: t) _ a na hna
  exact ⟨n2, hn2, ho2 hne⟩

/-- A journey with fewer than two stages changes no node. -/
theorem add_card_journey_nodes_short (g : FlowGraph) (stages : List String)
    (h : stages = [] ∨ ∃ x, stages = [x]) :
    (g.add_card_journey stages).nodes = g.nodes := by
  rcases h with rfl | ⟨x, rfl⟩ <;> rfl

theorem foldl_short_nodes (journeys : List (List String)) (g : FlowGraph)
    (h : ∀ j ∈ journeys, j = [] ∨ ∃ x, j = [x]) :
    (journeys.foldl FlowGraph.add_card_journey g).nodes = g.nodes := by
  induction journeys generalizing g with
  | nil => rfl
  | cons j rest ih =>
    rw [List.foldl_cons, ih (g.add_card_journey j)
      (fun x hx => h x (List.mem_cons_of_mem _ hx)),
      add_card_journey_nodes_short g j (h j (List.mem_cons_self _ _))]

theorem flowsFold_ne_nil (l : List (String × StageNode)) (p : String × StageNode)
    (hp : p ∈ l) (hne : p.2.outgoing_edges ≠ []) :
    l.foldr (fun entry acc =>
      (entry.2.outgoing_edges.map (fun e => FlowData.mk entry.1 e.1 e.2)) ++ acc) []
      ≠ [] := by
  induction l with
  | nil => simp at hp
  | cons e rest ih =>
    rcases List.mem_cons.1 hp with rfl | hp'
    · simp only [List.foldr_cons]
      intro habs
      exact hne (List.map_eq_nil_iff.1 (List.append_eq_nil.1 habs).1)
    · simp only [List.foldr_cons]
      intro habs
      exact ih hp' (List.append_eq_nil.1 habs).2

/-- Any node entry with a non-empty outgoing dict yields a flow. -/
theorem get_flows_ne_nil_of (g : FlowGraph) (p : String × StageNode)
    (hp : p ∈ g.nodes) (hne : p.2.outgoing_edges ≠ []) : g.get_flows ≠ [] :=
  flowsFold_ne_nil g.nodes p hp hne

/-- The waiting pass never empties an outgoing edge dict. -/
theorem pass_outgoing_mono (g : FlowGraph) (hnd : (g.nodes.map Prod.fst).Nodup)
    (k : String) (node : StageNode) (h : dictGet g.nodes k = some node)
    (hne : node.outgoing_edges ≠ []) :
    ∃ node', dictGet g.calculate_waiting_flows.nodes k = some node' ∧
      node'.outgoing_edges ≠ [] := by
  by_cases hw : k = "Waiting"
  · subst hw
    obtain ⟨w', hw', he', _⟩ :=
      foldl_waitingStep_waiting_outgoing (g.nodes.map Prod.fst) g node h
    exact ⟨w', hw', by rw [he']; exact hne⟩
  · refine ⟨_, calculate_waiting_flows_get g hnd k node hw h, ?_⟩
    split <;> simp [hne, bump_ne_nil]

/-- C10: any non-empty raw movement dict yields a report with at least one
flow edge, so the `"No flows generated from the data."` branch of
`generate_sankeymatic_data` is unreachable when histories exist: either
some cleaned history contributes a transition edge (which the waiting pass
never removes), or no transition exists at all and the first pipeline
stage emits a positive waiting edge for all `total_cards ≥ 1` entities. -/
theorem c10_flows_nonempty (card_movements : List (String × List String))
    (h : card_movements ≠ []) :
    (graphOfMovements card_movements).to_sankey_data.flows ≠ [] := by
  rw [graphOfMovements_eq_journeys]
  show (graphOfJourneys
      ((clean_backward_movements card_movements).map (fun h => h.stages))
    ).calculate_waiting_flows.get_flows ≠ []
  set js := (clean_backward_movements card_movements).map (fun h => h.stages) with hjs
  have hnd := graphOfJourneys_nodup js
  have hne_js : ∀ j ∈ js, j ≠ [] := by
    intro j hj
    rw [hjs] at hj
    simp only [clean_backward_movements, List.map_map, List.mem_map] at hj
    obtain ⟨p, _, hp⟩ := hj
    rw [← hp]
    exact (c8_default_first_stage p.2).1
  by_cases hshort : ∀ j ∈ js, j = [] ∨ ∃ x, j = [x]
  · -- no transition at all: the first pipeline stage emits a waiting edge
    have hnodes : (graphOfJourneys js).nodes =
        (FlowGraph.init PIPELINE_STAGES FINAL_STATES).nodes :=
      foldl_short_nodes js _ hshort
    have hget : dictGet (graphOfJourneys js).nodes "Applications" =
        some ⟨"Applications", false, [], []⟩ := by
      rw [hnodes]
      decide
    have htc : (graphOfJourneys js).total_cards = js.length :=
      graphOfJourneys_total_cards js hne_js
    have hlen : js.length ≠ 0 := by
      rw [hjs]
      simpa [clean_backward_movements] using h
    have hamount : 0 < waitingAmount (graphOfJourneys js) "Applications"
        ⟨"Applications", false, [], []⟩ := by
      unfold waitingAmount
      rw [if_pos (show (graphOfJourneys js).pipeline_stages.head? = some "Applications" ∧
          (StageNode.mk "Applications" false [] []).total_incoming = 0 from
        ⟨by rw [(graphOfJourneys_fields js).1]; rfl, rfl⟩)]
      simp only [ite_self]
      show 0 < (graphOfJourneys js).total_cards -
        (StageNode.mk "Applications" false [] []).total_outgoing
      rw [htc, show (StageNode.mk "Applications" false [] []).total_outgoing = 0
        from rfl]
      omega
    have hpass := calculate_waiting_flows_get (graphOfJourneys js) hnd "Applications"
      ⟨"Applications", false, [], []⟩ (by decide) hget
    rw [if_pos hamount] at hpass
    refine get_flows_ne_nil_of _ ("Applications",
      (StageNode.mk "Applications" false [] []).add_outgoing_flow "Waiting"
        (waitingAmount (graphOfJourneys js) "Applications"
          ⟨"Applications", false, [], []⟩)) (dictGet_mem _ _ _ hpass) ?_
    simp [bump_ne_nil]
  · -- some journey has at least two stages: its first transition survives
    push_neg at hshort
    obtain ⟨j, hj, hlong⟩ := hshort
    obtain ⟨a, b, t, rfl⟩ : ∃ a b t, j = a :: b :: t := by
      match j, hlong with
      | [], hlong => exact absurd rfl hlong.1
      | [x], hlong => exact absurd rfl (hlong.2 x)
      | a :: b :: t, _ => exact ⟨a, b, t, rfl⟩
    obtain ⟨l₁, l₂, hsplit⟩ := List.append_of_mem hj
    have hfold : graphOfJourneys js =
        l₂.foldl FlowGraph.add_card_journey
          ((l₁.foldl FlowGraph.add_card_journey
            (FlowGraph.init PIPELINE_STAGES FINAL_STATES)).add_card_journey
            (a :: b :: t)) := by
      rw [graphOfJourneys, hsplit, List.foldl_append, List.foldl_cons]
    obtain ⟨n1, hn1, hone⟩ := add_card_journey_two
      (l₁.foldl FlowGraph.add_card_journey
        (FlowGraph.init PIPELINE_STAGES FINAL_STATES)) a b t
    obtain ⟨n2, hn2, _, ho2⟩ := foldl_journeys_get_mono l₂ _ a n1 hn1
    rw [← hfold] at hn2
    obtain ⟨n3, hn3, ho3⟩ := pass_outgoing_mono (graphOfJourneys js) hnd a n2 hn2
      (ho2 hone)
    exact get_flows_ne_nil_of _ (a, n3) (dictGet_mem _ _ _ hn3) ho3

/-- Witness for C10 at a single card with an empty raw history. -/
theorem c10_flows_nonempty_witness :
    (graphOfMovements [("c1", [])]).to_sankey_data.flows ≠ [] :=
  c10_flows_nonempty [("c1", [])] (by decide)

/-! ## Claim C3: flow conservation after the waiting pass -/

/-- Counterexample to C3 as stated: the raw history
`["Screening", "Technical assessment"]` cleans to itself (its earliest
observation already skipped ahead, so no gap is filled before it), and in
the resulting graph the non-terminal node "Screening" has
`total_incoming = 0` but `total_outgoing = 1` even after the waiting
pass: `max(0, 0 - 1) = 0`, so no waiting edge compensates and
conservation fails (the spec itself flags this ambiguity in §9). -/
theorem c3_conservation_counterexample :
    dictGet (graphOfMovements
        [("c1", ["Screening", "Technical assessment"])]).calculate_waiting_flows.nodes
      "Screening" = some ⟨"Screening", false, [], [("Technical assessment", 1)]⟩ ∧
    (StageNode.mk "Screening" false [] [("Technical assessment", 1)]).total_incoming ≠
      (StageNode.mk "Screening" false [] [("Technical assessment", 1)]).total_outgoing ∧
    (StageNode.mk "Screening" false [] [("Technical assessment", 1)]).is_final = false := by
  decide

/-- Number of positions of `l` from which a transition out of `n` is added
(`l[i] = n` with a successor present). -/
def po (n : String) : List String → Nat
  | a :: b :: t => (if a = n then 1 else 0) + po n (b :: t)
  | _ => 0

/-- Number of positions of `l` into which a transition into `n` is added
(`l[i] = n` with a predecessor present). -/
def pi (n : String) : List String → Nat
  | _ :: b :: t => (if b = n then 1 else 0) + pi n (b :: t)
  | _ => 0

theorem po_le_pi_aux (n : String) :
    ∀ (l : List String) (a : String),
      po n (a :: l) ≤ pi n (a :: l) + (if a = n then 1 else 0) := by
  intro l
  induction l with
  | nil => intro _; simp [po, pi]
  | cons b t ih =>
    intro a
    have hb := ih b
    by_cases han : a = n <;> by_cases hbn : b = n <;>
      simp [po, pi, han, hbn] at hb ⊢ <;> omega

theorem po_eq_zero_of_not_mem (n : String) :
    ∀ l : List String, n ∉ l → po n l = 0 := by
  intro l
  induction l with
  | nil => intro _; rfl
  | cons a t ih =>
    intro h
    cases t with
    | nil => rfl
    | cons b t' =>
      have han : ¬(a = n) := fun ha => h (by rw [← ha]; exact List.mem_cons_self _ _)
      rw [po, if_neg han, ih (fun hm => h (List.mem_cons_of_mem _ hm))]

theorem po_le_one_of_not_mem_tail (n : String) (l : List String)
    (h : n ∉ l.tail) : po n l ≤ 1 := by
  cases l with
  | nil => simp [po]
  | cons a t =>
    cases t with
    | nil => simp [po]
    | cons b t' =>
      rw [po, po_eq_zero_of_not_mem n (b :: t') h]
      split <;> omega

theorem pi_eq_zero_of_not_mem_tail (n : String) :
    ∀ l : List String, n ∉ l.tail → pi n l = 0 := by
  intro l
  induction l with
  | nil => intro _; rfl
  | cons a t ih =>
    intro h
    cases t with
    | nil => rfl
    | cons b t' =>
      have hbn : ¬(b = n) := fun hb => h (by rw [← hb]; exact List.mem_cons_self _ _)
      rw [pi, if_neg hbn, ih (List.not_mem_of_not_mem_cons h)]

theorem mem_tail_append (x : String) (l₁ l₂ : List String)
    (h : x ∈ (l₁ ++ l₂).tail) : x ∈ l₁.tail ∨ x ∈ l₂ := by
  cases l₁ with
  | nil => exact Or.inr (List.mem_of_mem_tail h)
  | cons a t =>
    rcases List.mem_append.1 (by simpa using h) with h' | h'
    · exact Or.inl h'
    · exact Or.inr h'

/-- "Applications" is the head of the pipeline order, so it never appears
in a dropped-head slice of it. -/
theorem app_not_mem_take_drop (c k : Nat) (hk : 1 ≤ k) :
    "Applications" ∉ (PIPELINE_STAGES.take c).drop k := by
  intro hmem
  have h1 : "Applications" ∈ (PIPELINE_STAGES.drop k).take (c - k) := by
    rw [← List.drop_take]
    exact hmem
  have h2 : "Applications" ∈ PIPELINE_STAGES.drop k := List.take_subset _ _ h1
  have h3 : "Applications" ∈ (PIPELINE_STAGES.drop 1).drop (k - 1) := by
    rw [List.drop_drop, Nat.add_sub_cancel' hk]
    exact h2
  have h4 : "Applications" ∈ PIPELINE_STAGES.drop 1 := List.drop_subset _ _ h3
  revert h4
  decide

/-- In the pipeline order, only "Applications" sits at index 0. -/
theorem idxOf_zero_app (n : String) (hmem : n ∈ PIPELINE_STAGES)
    (h : idxOf PIPELINE_STAGES n = 0) : n = "Applications" := by
  have h5 : n = "Applications" ∨ n = "Screening" ∨ n = "Technical assessment" ∨
      n = "Final rounds" ∨ n = "Offers" := by simpa [PIPELINE_STAGES] using hmem
  rcases h5 with rfl | rfl | rfl | rfl | rfl
  · rfl
  all_goals revert h; decide

/-- The cleaner can only place "Applications" at the head of its output:
invariant over the loop state.  `max_pipeline_index = -1` means nothing
was recorded (empty accumulator); `max_pipeline_index = 0` means the last
recorded element is "Applications" itself (so the duplicate guard blocks a
second copy); once the index passes 0, gap filling only draws from index
`max_pipeline_index + 1 ≥ 1` on. -/
theorem cleanAux_app_tail (full : List String) :
    ∀ (acc : List String) (m : Int), -1 ≤ m →
      (m = -1 → acc = []) →
      (m = 0 → acc.getLast? = some "Applications") →
      "Applications" ∉ acc.tail →
      "Applications" ∉ (cleanAux full acc m).tail := by
  induction full with
  | nil => exact fun acc m _ _ _ h3 => h3
  | cons stage rest ih =>
    intro acc m hm h1 h2 h3
    by_cases hfin : normalize_stage_name stage ∈ FINAL_STATES
    · rw [cleanAux, if_pos hfin]
      intro habs
      rcases mem_tail_append _ _ _ habs with h' | h'
      · exact h3 h'
      · have : "Applications" = normalize_stage_name stage := by simpa using h'
        exact absurd (this ▸ hfin) (by decide)
    · by_cases hpip : normalize_stage_name stage ∈ PIPELINE_STAGES
      · by_cases hlt : (idxOf PIPELINE_STAGES (normalize_stage_name stage) : Int) < m
        · rw [cleanAux, if_neg hfin, if_pos hpip, if_pos hlt]
          exact ih acc m hm h1 h2 h3
        · rw [cleanAux, if_neg hfin, if_pos hpip, if_neg hlt]
          by_cases happ : normalize_stage_name stage = "Applications"
          · -- current index is 0, so m ≤ 0
            have hidx : idxOf PIPELINE_STAGES (normalize_stage_name stage) = 0 := by
              rw [happ]
              rfl
            rw [hidx] at hlt ⊢
            have hm0 : m = -1 ∨ m = 0 := by omega
            rcases hm0 with rfl | rfl
            · rw [h1 rfl]
              rw [show gapFill [] (-1) ((0 : Nat) : Int) = [] from rfl]
              rw [show appendStage [] (normalize_stage_name stage) =
                [normalize_stage_name stage] from rfl]
              refine ih _ _ (by omega) (by omega) ?_ (by simp)
              intro _
              rw [happ]
              rfl
            · have hlast := h2 rfl
              have hcond : acc.getLast? = some (normalize_stage_name stage) := by
                rw [happ]
                exact hlast
              rw [show gapFill acc 0 ((0 : Nat) : Int) = acc from rfl,
                appendStage, if_pos hcond]
              exact ih _ _ (by omega) (by omega) (fun _ => hlast) h3
          · -- current index is at least 1
            have hc1 : 1 ≤ idxOf PIPELINE_STAGES (normalize_stage_name stage) := by
              rcases Nat.eq_zero_or_pos (idxOf PIPELINE_STAGES
                (normalize_stage_name stage)) with h0 | h0
              · exact absurd (idxOf_zero_app _ hpip h0) happ
              · exact h0
            have hgap : "Applications" ∉
                (gapFill acc m (idxOf PIPELINE_STAGES (normalize_stage_name stage))).tail
                ∧ ((gapFill acc m (idxOf PIPELINE_STAGES (normalize_stage_name stage))
                  = acc) ∨ m ≠ -1) := by
              unfold gapFill
              split
              · rename_i hcond
                constructor
                · intro habs
                  rcases mem_tail_append _ _ _ habs with h' | h'
                  · exact h3 h'
                  · have hk : 1 ≤ (m + 1).toNat := by omega
                    exact app_not_mem_take_drop _ _ hk h'
                · exact Or.inr hcond.1
              · exact ⟨h3, Or.inl rfl⟩
            have happs : "Applications" ∉
                (appendStage
                  (gapFill acc m (idxOf PIPELINE_STAGES (normalize_stage_name stage)))
                  (normalize_stage_name stage)).tail := by
              unfold appendStage
              split
              · exact hgap.1
              · intro habs
                rcases mem_tail_append _ _ _ habs with h' | h'
                · exact hgap.1 h'
                · have heq : "Applications" = normalize_stage_name stage := by
                    simpa using h'
                  exact happ heq.symm
            refine ih _ _ (by omega) (fun hneg => absurd hneg (by omega)) ?_ happs
            intro h0
            exfalso
            have : idxOf PIPELINE_STAGES (normalize_stage_name stage) = 0 := by
              exact_mod_cast h0
            omega
      · by_cases hunk : containsStr (normalize_stage_name stage) "Unknown" = true
        · rw [cleanAux, if_neg hfin, if_neg hpip, if_pos hunk]
          exact ih acc m hm h1 h2 h3
        · rw [cleanAux, if_neg hfin, if_neg hpip, if_neg hunk]
          exact ih acc m hm h1 h2 h3

theorem cleanOneHistory_app_not_tail (full : List String) :
    "Applications" ∉ (cleanOneHistory full).tail := by
  simp only [cleanOneHistory]
  split
  · simp
  · exact cleanAux_app_tail full [] (-1) (by omega)
      (fun _ => rfl) (fun h => absurd h (by omega)) (by simp)

theorem ite_one_comm (u v : String) :
    (if u = v then (1 : Nat) else 0) = (if v = u then 1 else 0) := by
  by_cases h : u = v
  · subst h
    rfl
  · rw [if_neg h, if_neg (fun hh => h hh.symm)]

theorem addTransition_totals (g : FlowGraph) (a b x : String) (node : StageNode)
    (ha : (dictGet g.nodes a).isSome) (hb : (dictGet g.nodes b).isSome)
    (h : dictGet g.nodes x = some node) :
    ∃ node', dictGet (addTransition g a b).nodes x = some node' ∧
      node'.total_incoming = node.total_incoming + (if x = b then 1 else 0) ∧
      node'.total_outgoing = node.total_outgoing + (if x = a then 1 else 0) ∧
      node'.is_final = node.is_final := by
  refine ⟨_, addTransition_get_present g a b x node ha hb h, ?_, ?_, ?_⟩ <;>
    by_cases hxb : x = b <;> by_cases hxa : x = a <;> simp [hxb, hxa] <;>
      split <;> simp

theorem addTransitions_totals (stages : List String) (g : FlowGraph) (x : String)
    (node : StageNode) (hpres : ∀ y ∈ stages, (dictGet g.nodes y).isSome)
    (h : dictGet g.nodes x = some node) :
    ∃ node', dictGet (addTransitions g stages).nodes x = some node' ∧
      node'.total_incoming = node.total_incoming + pi x stages ∧
      node'.total_outgoing = node.total_outgoing + po x stages ∧
      node'.is_final = node.is_final := by
  induction stages generalizing g node with
  | nil => exact ⟨node, h, by simp [pi], by simp [po], rfl⟩
  | cons a t ih =>
    cases t with
    | nil => exact ⟨node, h, by simp [pi], by simp [po], rfl⟩
    | cons b t' =>
      have ha := hpres a (by simp)
      have hb := hpres b (by simp)
      obtain ⟨n1, hn1, hi1, ho1, hf1⟩ := addTransition_totals g a b x node ha hb h
      have hkeys := addTransition_keys_present g a b ha hb
      have hpres' : ∀ y ∈ b :: t',
          (dictGet (addTransition g a b).nodes y).isSome := by
        intro y hy
        rw [dictGet_isSome_iff_mem, hkeys, ← dictGet_isSome_iff_mem]
        exact hpres y (List.mem_cons_of_mem _ hy)
      obtain ⟨n2, hn2, hi2, ho2, hf2⟩ := ih (addTransition g a b) n1 hpres' hn1
      refine ⟨n2, hn2, ?_, ?_, by rw [hf2, hf1]⟩
      · rw [hi2, hi1, pi, ite_one_comm]
        omega
      · rw [ho2, ho1, po, ite_one_comm]
        omega

theorem mem_keys_of_stage (g : FlowGraph)
    (hkeys : g.nodes.map Prod.fst = PIPELINE_STAGES ++ FINAL_STATES ++ ["Waiting"])
    (x : String) (hx : x ∈ PIPELINE_STAGES ∨ x ∈ FINAL_STATES) :
    (dictGet g.nodes x).isSome := by
  rw [dictGet_isSome_iff_mem, hkeys]
  rcases hx with h | h
  · exact List.mem_append.2 (Or.inl (List.mem_append.2 (Or.inl h)))
  · exact List.mem_append.2 (Or.inl (List.mem_append.2 (Or.inr h)))

/-- The running invariant behind the amended claim C3, for graphs built
from cleaned histories that start at the first pipeline stage: the entry
stage never receives incoming flow and its outgoing total never exceeds
the card count; every other non-terminal node's outgoing total never
exceeds its incoming total. -/
def ConservationInv (g : FlowGraph) : Prop :=
  (∀ node, dictGet g.nodes "Applications" = some node →
    node.total_incoming = 0 ∧ node.total_outgoing ≤ g.total_cards) ∧
  (∀ (name : String) (node : StageNode), name ≠ "Applications" →
    dictGet g.nodes name = some node → node.is_final = false →
    node.total_outgoing ≤ node.total_incoming)

theorem init_nodes_zero :
    ∀ p ∈ (FlowGraph.init PIPELINE_STAGES FINAL_STATES).nodes,
      p.2.incoming_edges = [] ∧ p.2.outgoing_edges = [] := by decide

theorem conservation_init :
    ConservationInv (FlowGraph.init PIPELINE_STAGES FINAL_STATES) := by
  constructor
  · intro node h
    have hA : dictGet (FlowGraph.init PIPELINE_STAGES FINAL_STATES).nodes
        "Applications" = some ⟨"Applications", false, [], []⟩ := by decide
    rw [hA] at h
    rw [← Option.some.inj h]
    exact ⟨by decide, by decide⟩
  · intro name node _ h _
    obtain ⟨hin, hout⟩ := init_nodes_zero (name, node) (dictGet_mem _ _ _ h)
    unfold StageNode.total_outgoing StageNode.total_incoming
    rw [hin, hout]

theorem conservation_step (g : FlowGraph) (j : List String)
    (hkeys : g.nodes.map Prod.fst = PIPELINE_STAGES ++ FINAL_STATES ++ ["Waiting"])
    (hmem : ∀ x ∈ j, x ∈ PIPELINE_STAGES ∨ x ∈ FINAL_STATES)
    (hhead : j.head? = some "Applications")
    (htail : "Applications" ∉ j.tail)
    (hinv : ConservationInv g) :
    ConservationInv (g.add_card_journey j) := by
  cases j with
  | nil => exact absurd hhead (by simp)
  | cons a rest =>
  have hheadA : a = "Applications" := by simpa using hhead
  have hpres : ∀ y ∈ a :: rest,
      (dictGet ({ g with total_cards := g.total_cards + 1 } : FlowGraph).nodes y).isSome :=
    fun y hy => mem_keys_of_stage g hkeys y (hmem y hy)
  have htc : (g.add_card_journey (a :: rest)).total_cards = g.total_cards + 1 := by
    rw [(add_card_journey_fields g (a :: rest)).2.2, if_neg (by simp)]
  constructor
  · intro node' hget'
    obtain ⟨nodeA, hnA⟩ := Option.isSome_iff_exists.1
      (mem_keys_of_stage g hkeys "Applications" (Or.inl (by decide)))
    obtain ⟨nA', hget, hin, hout, _⟩ := addTransitions_totals (a :: rest)
      { g with total_cards := g.total_cards + 1 } "Applications" nodeA hpres hnA
    have hget2 : dictGet (g.add_card_journey (a :: rest)).nodes "Applications" =
        some nA' := hget
    rw [hget2] at hget'
    rw [← Option.some.inj hget']
    obtain ⟨hA1, hA2⟩ := hinv.1 nodeA hnA
    constructor
    · rw [hin, hA1, pi_eq_zero_of_not_mem_tail _ _ htail]
    · rw [hout, htc]
      have hpo : po "Applications" (a :: rest) ≤ 1 :=
        po_le_one_of_not_mem_tail _ _ htail
      omega
  · intro name node' hname hget' hfin'
    have hkeys2 : (g.add_card_journey (a :: rest)).nodes.map Prod.fst =
        g.nodes.map Prod.fst :=
      add_card_journey_keys g (a :: rest) (fun x hx =>
        (dictGet_isSome_iff_mem _ _).1 (mem_keys_of_stage g hkeys x (hmem x hx)))
    have hsome : (dictGet g.nodes name).isSome := by
      rw [dictGet_isSome_iff_mem, ← hkeys2, ← dictGet_isSome_iff_mem, hget']
      rfl
    obtain ⟨node, hnode⟩ := Option.isSome_iff_exists.1 hsome
    obtain ⟨n', hget, hin, hout, hfin⟩ := addTransitions_totals (a :: rest)
      { g with total_cards := g.total_cards + 1 } name node hpres hnode
    have hget2 : dictGet (g.add_card_journey (a :: rest)).nodes name = some n' := hget
    rw [hget2] at hget'
    have hn'eq := Option.some.inj hget'
    have hfin0 : node.is_final = false := by rw [← hfin, hn'eq, hfin']
    have hbase := hinv.2 name node hname hnode hfin0
    have hhead_ne : ¬(a = name) := by
      rw [hheadA]
      exact fun hh => hname hh.symm
    have hpo := po_le_pi_aux name rest a
    rw [if_neg hhead_ne] at hpo
    rw [← hn'eq, hout, hin]
    omega

theorem conservation_fold (journeys : List (List String)) (g0 : FlowGraph)
    (hj : ∀ j ∈ journeys, (∀ x ∈ j, x ∈ PIPELINE_STAGES ∨ x ∈ FINAL_STATES) ∧
      j.head? = some "Applications" ∧ "Applications" ∉ j.tail)
    (hkeys0 : g0.nodes.map Prod.fst = PIPELINE_STAGES ++ FINAL_STATES ++ ["Waiting"])
    (hinv0 : ConservationInv g0) :
    (journeys.foldl FlowGraph.add_card_journey g0).nodes.map Prod.fst =
      PIPELINE_STAGES ++ FINAL_STATES ++ ["Waiting"] ∧
    ConservationInv (journeys.foldl FlowGraph.add_card_journey g0) := by
  induction journeys generalizing g0 with
  | nil => exact ⟨hkeys0, hinv0⟩
  | cons j rest ih =>
    obtain ⟨hm, hh, ht⟩ := hj j (List.mem_cons_self _ _)
    have hkeys1 : (g0.add_card_journey j).nodes.map Prod.fst =
        PIPELINE_STAGES ++ FINAL_STATES ++ ["Waiting"] := by
      rw [add_card_journey_keys g0 j (fun x hx =>
        (dictGet_isSome_iff_mem _ _).1 (mem_keys_of_stage g0 hkeys0 x (hm x hx))),
        hkeys0]
    exact ih (g0.add_card_journey j)
      (fun j' hj' => hj j' (List.mem_cons_of_mem _ hj'))
      hkeys1 (conservation_step g0 j hkeys0 hm hh ht hinv0)

theorem passed_node_totals (g : FlowGraph) (name : String) (node0 node : StageNode)
    (heq : node = if 0 < waitingAmount g name node0
      then node0.add_outgoing_flow "Waiting" (waitingAmount g name node0)
      else node0) :
    node.total_incoming = node0.total_incoming ∧
    node.total_outgoing = node0.total_outgoing + waitingAmount g name node0 ∧
    node.is_final = node0.is_final := by
  refine ⟨?_, ?_, ?_⟩ <;> rw [heq] <;> split <;> (simp; try omega)

/-- C3 (amended): for a flow graph built from cleaned entity histories
*each of which begins at the first pipeline stage*, after
`calculate_waiting_flows` every non-terminal node satisfies
`total_incoming = total_outgoing` exactly, with `total_cards` as the
left-hand side for the entry stage "Applications". -/
theorem c3_conservation_amended (card_movements : List (String × List String))
    (hstart : ∀ p ∈ card_movements, (cleanOneHistory p.2).head? = some "Applications")
    (name : String) (node : StageNode)
    (hget : dictGet
        (graphOfMovements card_movements).calculate_waiting_flows.nodes name =
      some node)
    (hfin : node.is_final = false) :
    (if name = "Applications"
     then (graphOfMovements card_movements).calculate_waiting_flows.total_cards
     else node.total_incoming) = node.total_outgoing := by
  rw [graphOfMovements_eq_journeys] at hget ⊢
  set js := (clean_backward_movements card_movements).map (fun h => h.stages) with hjs
  have hjfacts : ∀ j ∈ js, (∀ x ∈ j, x ∈ PIPELINE_STAGES ∨ x ∈ FINAL_STATES) ∧
      j.head? = some "Applications" ∧ "Applications" ∉ j.tail := by
    intro j hj
    rw [hjs] at hj
    simp only [clean_backward_movements, List.map_map, List.mem_map] at hj
    obtain ⟨p, hp, hpe⟩ := hj
    refine ⟨?_, ?_, ?_⟩ <;> rw [← hpe]
    · exact fun x hx => cleanOneHistory_mem p.2 x hx
    · exact hstart p hp
    · exact cleanOneHistory_app_not_tail p.2
  have hinv := conservation_fold js (FlowGraph.init PIPELINE_STAGES FINAL_STATES)
    hjfacts (by decide) conservation_init
  have hkeysG : (graphOfJourneys js).nodes.map Prod.fst =
      PIPELINE_STAGES ++ FINAL_STATES ++ ["Waiting"] := hinv.1
  have hinvG : ConservationInv (graphOfJourneys js) := hinv.2
  have hnd := graphOfJourneys_nodup js
  by_cases hw : name = "Waiting"
  · exfalso
    subst hw
    have hWinit : dictGet (FlowGraph.init PIPELINE_STAGES FINAL_STATES).nodes
        "Waiting" = some ⟨"Waiting", true, [], []⟩ := by decide
    obtain ⟨w1, hw1, hwf, _⟩ := foldl_journeys_get_mono js _ "Waiting" _ hWinit
    obtain ⟨w2, hw2, _, hwf2⟩ := foldl_waitingStep_waiting_outgoing
      ((graphOfJourneys js).nodes.map Prod.fst) (graphOfJourneys js) w1 hw1
    have hw2' : dictGet (graphOfJourneys js).calculate_waiting_flows.nodes "Waiting" =
        some w2 := hw2
    rw [hw2'] at hget
    rw [← Option.some.inj hget, hwf2, hwf] at hfin
    cases hfin
  · obtain ⟨m1, _, _, m4⟩ := foldl_waitingStep_meta
      ((graphOfJourneys js).nodes.map Prod.fst) (graphOfJourneys js)
    have hm1 : (graphOfJourneys js).calculate_waiting_flows.total_cards =
        (graphOfJourneys js).total_cards := m1
    have hm4 : (graphOfJourneys js).calculate_waiting_flows.nodes.map Prod.fst =
        (graphOfJourneys js).nodes.map Prod.fst := m4
    have hsome : (dictGet (graphOfJourneys js).nodes name).isSome := by
      rw [dictGet_isSome_iff_mem, ← hm4, ← dictGet_isSome_iff_mem, hget]
      rfl
    obtain ⟨node0, hnode0⟩ := Option.isSome_iff_exists.1 hsome
    have hpass := calculate_waiting_flows_get (graphOfJourneys js) hnd name node0
      hw hnode0
    rw [hpass] at hget
    obtain ⟨hin, hout, hfineq⟩ := passed_node_totals (graphOfJourneys js) name node0
      node (Option.some.inj hget).symm
    have hfin0 : node0.is_final = false := by rw [← hfineq]; exact hfin
    by_cases hA : name = "Applications"
    · subst hA
      obtain ⟨h1, h2⟩ := hinvG.1 node0 hnode0
      have hwamount : waitingAmount (graphOfJourneys js) "Applications" node0 =
          (graphOfJourneys js).total_cards - node0.total_outgoing := by
        unfold waitingAmount
        rw [if_pos (show (graphOfJourneys js).pipeline_stages.head? =
            some "Applications" ∧ node0.total_incoming = 0 from
          ⟨by rw [(graphOfJourneys_fields js).1]; rfl, h1⟩)]
        simp only [ite_self]
      rw [if_pos rfl, hm1, hout, hwamount]
      omega
    · rw [if_neg hA]
      have hbase := hinvG.2 name node0 hA hnode0 hfin0
      have hwamount : waitingAmount (graphOfJourneys js) name node0 =
          node0.total_incoming - node0.total_outgoing := by
        unfold waitingAmount
        rw [if_neg (show ¬((graphOfJourneys js).pipeline_stages.head? = some name ∧
            node0.total_incoming = 0) from ?_)]
        · unfold StageNode.calculate_waiting
          rw [if_neg (by rw [hfin0]; simp)]
        · intro hc
          have hc1 := hc.1
          rw [(graphOfJourneys_fields js).1] at hc1
          have : some "Applications" = some name := hc1
          exact hA (Option.some.inj this).symm
      rw [hin, hout, hwamount]
      omega

/-- Witness for C3 at a single entity with history
`["Applications", "Screening"]`: the node "Screening" is conserved
(1 in = 1 out, after its waiting edge is added). -/
theorem c3_conservation_amended_witness :
    (if "Screening" = "Applications"
     then (graphOfMovements
        [("c1", ["Applications", "Screening"])]).calculate_waiting_flows.total_cards
     else (StageNode.mk "Screening" false [("Applications", 1)]
        [("Waiting", 1)]).total_incoming) =
      (StageNode.mk "Screening" false [("Applications", 1)]
        [("Waiting", 1)]).total_outgoing :=
  c3_conservation_amended [("c1", ["Applications", "Screening"])] (by decide)
    "Screening" ⟨"Screening", false, [("Applications", 1)], [("Waiting", 1)]⟩
    (by decide) (by decide)
